import Mathlib

/-!
Concurrent hash table (chash): record store, hash function and lock calls

Shallow embedding of `hash_table.c`, `rwlock.c`, the declarations of
`hash_table.h` / `rwlock.h`, and the turn sequencer, command dispatch and
reading loop of `chash.c`.

Conventions of the embedding

* `uint32_t` values are `Nat`, every arithmetic step reduced `% 2^32` where the
  C operation can wrap.
* A C string (`const char *`) is the list of its `char` values before the
  terminating NUL, each an `Int`.  Plain `char` is signed on the x86-64 ABI
  (values -128..127) and unsigned on some others (0..255); the embedding keeps
  the `char` value itself, so both are covered.
* The singly linked list hanging off `table->head` is a `List hashRecord`, head
  first.
* A semaphore is its counter (`Nat`).  Calls are modelled for one thread running
  without interference: a `sem_wait` on a zero counter never returns, which is
  the result `none`.
* `malloc` is an external call; whether it succeeds is an input (`malloc_ok`).
* `qsort` is the C library routine; `hash_table_print` takes it as an argument.
* The reading loop of `main` runs over the strings that the successive `fgets`
  calls store (`FgetsLine`); `sscanf` is the C library routine and is an
  argument of the loop (`SscanfContract`).  Its format has no field widths:
  when a field does not fit the buffer it is written to, or no item is
  assigned, the behaviour is undefined and the loop has the outcome
  `ReadOutcome.undefined`.
* The `priority` argument and the `log_message` / `printf` lines only feed the
  log and the status stream and are left out, except for the record lines that
  `hash_table_print` emits, which are its output.
* Concurrency is modelled by interleaving.  For the lock, each thread advances by
  one `sem_wait`, `sem_post` or update of `readers` at a time (`thread_step`).
  For the driver, a worker advances by passing `wait_and_signal_next` (atomic
  under `turn_mutex`) and then by its whole store call (the calls exclude or
  commute with each other under the lock).  C `int` counters are `Int`;
  overflow of `readers` and `current_turn` is not modelled.
-/

namespace Chash

/-! ## Data model (`hash_table.h`, `rwlock.h`) -/

/-- Record of the store: `hashRecord` without the `next` link. -/
structure hashRecord where
  hash : Nat
  name : List Int
  salary : Nat
deriving DecidableEq, Repr

/-- Reader-writer lock: two semaphore counters and the reader count. -/
structure rwlock_t where
  writelock : Nat
  lock : Nat
  readers : Int
deriving DecidableEq, Repr

/-- Table: the linked list of records (head first) and its lock. -/
structure hashTable where
  head : List hashRecord
  lock : rwlock_t
deriving DecidableEq, Repr

/-! ## `jenkins_hash` -/

/-- Body of the `for` loop of `jenkins_hash` for one `char` value `c`:
`hash += key[i]; hash += (hash << 10); hash ^= (hash >> 6);` on `uint32_t`.
The `char` is promoted to `int` and converted to `uint32_t` by the addition. -/
def jenkins_step (hash : Nat) (c : Int) : Nat :=
  let h1 := (((hash : Int) + c) % 4294967296).toNat
  let h2 := (h1 + (h1 <<< 10) % 4294967296) % 4294967296
  h2 ^^^ (h2 >>> 6)

/-- The `for` loop of `jenkins_hash`, from the current `hash` over the rest of the key. -/
def jenkins_loop : Nat → List Int → Nat
  | hash, [] => hash
  | hash, c :: rest => jenkins_loop (jenkins_step hash c) rest

/-- The three closing statements of `jenkins_hash`:
`hash += (hash << 3); hash ^= (hash >> 11); hash += (hash << 15);`. -/
def jenkins_finish (hash : Nat) : Nat :=
  let h1 := (hash + (hash <<< 3) % 4294967296) % 4294967296
  let h2 := h1 ^^^ (h1 >>> 11)
  (h2 + (h2 <<< 15) % 4294967296) % 4294967296

/-- `jenkins_hash(key)`. -/
def jenkins_hash (key : List Int) : Nat :=
  jenkins_finish (jenkins_loop 0 key)

/-- Unsigned value (0..255) of a `char` value. -/
def byte_of_char (c : Int) : Nat := (c % 256).toNat

/-- One round of the one-at-a-time reference hash for a byte `b` in 0..255:
`h += b; h += h << 10; h ^= h >> 6` in 32-bit unsigned arithmetic. -/
def reference_step (h : Nat) (b : Nat) : Nat :=
  let h1 := (h + b) % 4294967296
  let h2 := (h1 + (h1 <<< 10) % 4294967296) % 4294967296
  h2 ^^^ (h2 >>> 6)

/-- One-at-a-time reference hash of a byte string, as the specification words it:
start from 0, one round per byte taken as its unsigned value, then
`h += h << 3; h ^= h >> 11; h += h << 15`. -/
def reference_hash (key : List Int) : Nat :=
  let h := (key.map byte_of_char).foldl reference_step 0
  let h1 := (h + (h <<< 3) % 4294967296) % 4294967296
  let h2 := h1 ^^^ (h1 >>> 11)
  (h2 + (h2 <<< 15) % 4294967296) % 4294967296

/-! ## Semaphores and the reader-writer lock (`rwlock.c`) -/

/-- `sem_wait` on a counter: decrements a positive counter; on a zero counter the
caller blocks, and with no other thread running the call never returns (`none`). -/
def sem_wait (v : Nat) : Option Nat :=
  if v = 0 then none else some (v - 1)

/-- `sem_post` on a counter. -/
def sem_post (v : Nat) : Nat := v + 1

/-- `rwlock_init`: no readers, both semaphores at 1. -/
def rwlock_init : rwlock_t :=
  { writelock := 1, lock := 1, readers := 0 }

/-- `rwlock_acquire_readlock`. -/
def rwlock_acquire_readlock (rw : rwlock_t) : Option rwlock_t :=
  match sem_wait rw.lock with
  | none => none
  | some l =>
    let rw1 : rwlock_t := { rw with lock := l, readers := rw.readers + 1 }
    if rw1.readers = 1 then
      match sem_wait rw1.writelock with
      | none => none
      | some w => some { rw1 with writelock := w, lock := sem_post rw1.lock }
    else
      some { rw1 with lock := sem_post rw1.lock }

/-- `rwlock_release_readlock`. -/
def rwlock_release_readlock (rw : rwlock_t) : Option rwlock_t :=
  match sem_wait rw.lock with
  | none => none
  | some l =>
    let rw1 : rwlock_t := { rw with lock := l, readers := rw.readers - 1 }
    if rw1.readers = 0 then
      some { rw1 with writelock := sem_post rw1.writelock, lock := sem_post rw1.lock }
    else
      some { rw1 with lock := sem_post rw1.lock }

/-- `rwlock_acquire_writelock`. -/
def rwlock_acquire_writelock (rw : rwlock_t) : Option rwlock_t :=
  match sem_wait rw.writelock with
  | none => none
  | some w => some { rw with writelock := w }

/-- `rwlock_release_writelock`. -/
def rwlock_release_writelock (rw : rwlock_t) : rwlock_t :=
  { rw with writelock := sem_post rw.writelock }

/-! ## The record store (`hash_table.c`) -/

/-- `hash_table_init`: empty list, fresh lock. -/
def hash_table_init : hashTable :=
  { head := [], lock := rwlock_init }

/-- The scanning `while` loop shared by `hash_table_insert` (duplicate check) and
`hash_table_search`: walks from `current` and stops at the first record whose
`hash` field equals `hash`. -/
def find_record : List hashRecord → Nat → Option hashRecord
  | [], _ => none
  | current :: next, hash =>
    if current.hash = hash then some current else find_record next hash

/-- `hash_table_insert`; the result is the table after the call and the `int`
returned. -/
def hash_table_insert (table : hashTable) (name : List Int) (salary : Nat)
    (malloc_ok : Bool) : Option (hashTable × Int) :=
  let hash := jenkins_hash name
  match rwlock_acquire_writelock table.lock with
  | none => none
  | some lk =>
    match find_record table.head hash with
    | some _ => some ({ table with lock := rwlock_release_writelock lk }, -1)
    | none =>
      if malloc_ok then
        let new_record : hashRecord :=
          { hash := hash, name := name.take 49, salary := salary }
        some ({ head := new_record :: table.head, lock := rwlock_release_writelock lk }, 0)
      else
        some ({ table with lock := rwlock_release_writelock lk }, -1)

/-- The `while` loop of `hash_table_delete`: unlinks the first record whose hash
is `hash` and gives the list that remains; `none` when the loop runs off the
end of the list. -/
def delete_loop : List hashRecord → Nat → Option (List hashRecord)
  | [], _ => none
  | current :: next, hash =>
    if current.hash = hash then some next
    else
      match delete_loop next hash with
      | some rest => some (current :: rest)
      | none => none

/-- `hash_table_delete`. -/
def hash_table_delete (table : hashTable) (name : List Int) : Option (hashTable × Int) :=
  let hash := jenkins_hash name
  match rwlock_acquire_writelock table.lock with
  | none => none
  | some lk =>
    match delete_loop table.head hash with
    | some rest => some ({ head := rest, lock := rwlock_release_writelock lk }, 0)
    | none => some ({ table with lock := rwlock_release_writelock lk }, -1)

/-- The `while` loop of `hash_table_update`: overwrites `salary` in the first
record whose hash is `hash`; `none` when the loop runs off the end of the list. -/
def update_loop : List hashRecord → Nat → Nat → Option (List hashRecord)
  | [], _, _ => none
  | current :: next, hash, new_salary =>
    if current.hash = hash then some ({ current with salary := new_salary } :: next)
    else
      match update_loop next hash new_salary with
      | some rest => some (current :: rest)
      | none => none

/-- `hash_table_update`. -/
def hash_table_update (table : hashTable) (name : List Int) (new_salary : Nat) :
    Option (hashTable × Int) :=
  let hash := jenkins_hash name
  match rwlock_acquire_writelock table.lock with
  | none => none
  | some lk =>
    match update_loop table.head hash new_salary with
    | some rest => some ({ head := rest, lock := rwlock_release_writelock lk }, 0)
    | none => some ({ table with lock := rwlock_release_writelock lk }, -1)

/-- `hash_table_search`; the result is the table after the call and the record
pointed to by the returned pointer (`none` for `NULL`). -/
def hash_table_search (table : hashTable) (name : List Int) :
    Option (hashTable × Option hashRecord) :=
  let hash := jenkins_hash name
  match rwlock_acquire_readlock table.lock with
  | none => none
  | some lk =>
    let result := find_record table.head hash
    match rwlock_release_readlock lk with
    | none => none
    | some lk1 => some ({ table with lock := lk1 }, result)

/-- `compare_records`, on the two records the array slots point to. -/
def compare_records (rec_a rec_b : hashRecord) : Int :=
  if rec_a.hash < rec_b.hash then -1
  else if rec_a.hash > rec_b.hash then 1
  else 0

/-- The counting `while` loop of `hash_table_print`. -/
def count_records : List hashRecord → Nat
  | [] => 0
  | _ :: next => count_records next + 1

/-- The array-filling `for` loop of `hash_table_print`: the first `count` records
from `current`, in list order. -/
def fill_array : Nat → List hashRecord → List hashRecord
  | 0, _ => []
  | _ + 1, [] => []
  | count + 1, current :: next => current :: fill_array count next

/-- `hash_table_print`; the result is the table after the call and the records
written by the printing loop, in the order written.  `qsort` is the C library
sort, applied to the filled array with `compare_records`. -/
def hash_table_print
    (qsort : (hashRecord → hashRecord → Int) → List hashRecord → List hashRecord)
    (table : hashTable) (malloc_ok : Bool) : Option (hashTable × List hashRecord) :=
  match rwlock_acquire_readlock table.lock with
  | none => none
  | some lk =>
    let count := count_records table.head
    if count = 0 then
      match rwlock_release_readlock lk with
      | none => none
      | some lk1 => some ({ table with lock := lk1 }, [])
    else if malloc_ok then
      let records := qsort compare_records (fill_array count table.head)
      match rwlock_release_readlock lk with
      | none => none
      | some lk1 => some ({ table with lock := lk1 }, records)
    else
      match rwlock_release_readlock lk with
      | none => none
      | some lk1 => some ({ table with lock := lk1 }, [])

/-! ## The C library sort -/

/-- What the C standard promises of `qsort` called with comparator `cmp`: the
array afterwards holds the same elements, and an earlier element never compares
greater than a later one.  The order of elements that compare equal is left
open. -/
def QsortContract
    (qsort : (hashRecord → hashRecord → Int) → List hashRecord → List hashRecord)
    (cmp : hashRecord → hashRecord → Int) : Prop :=
  ∀ xs, (qsort cmp xs).Perm xs ∧ (qsort cmp xs).Pairwise (fun a b => cmp a b ≤ 0)

/-- Insertion of one element into a sorted array, by comparator. -/
def sorted_insert (cmp : hashRecord → hashRecord → Int) (x : hashRecord) :
    List hashRecord → List hashRecord
  | [] => [x]
  | y :: ys => if cmp x y ≤ 0 then x :: y :: ys else y :: sorted_insert cmp x ys

/-- An executable sort with the behaviour the C standard allows for `qsort`
(insertion sort driven by the comparator). -/
def qsort_model (cmp : hashRecord → hashRecord → Int) : List hashRecord → List hashRecord
  | [] => []
  | x :: xs => sorted_insert cmp x (qsort_model cmp xs)

/-! ## Reachable tables -/

/-- Tables reachable from `hash_table_init` by calls of `hash_table_insert`,
`hash_table_delete` and `hash_table_update` that return. -/
inductive Reachable : hashTable → Prop
  | init : Reachable hash_table_init
  | insert {t t1 : hashTable} {name : List Int} {salary : Nat} {malloc_ok : Bool} {rc : Int} :
      Reachable t → hash_table_insert t name salary malloc_ok = some (t1, rc) → Reachable t1
  | delete {t t1 : hashTable} {name : List Int} {rc : Int} :
      Reachable t → hash_table_delete t name = some (t1, rc) → Reachable t1
  | update {t t1 : hashTable} {name : List Int} {salary : Nat} {rc : Int} :
      Reachable t → hash_table_update t name salary = some (t1, rc) → Reachable t1

/-- Tables reachable from `hash_table_init` when every name handed to
`hash_table_insert` has at most 49 chars, as the driver arranges by cutting
`args->name` to 49 chars. -/
inductive ReachableShortNames : hashTable → Prop
  | init : ReachableShortNames hash_table_init
  | insert {t t1 : hashTable} {name : List Int} {salary : Nat} {malloc_ok : Bool} {rc : Int} :
      ReachableShortNames t → name.length ≤ 49 →
      hash_table_insert t name salary malloc_ok = some (t1, rc) → ReachableShortNames t1
  | delete {t t1 : hashTable} {name : List Int} {rc : Int} :
      ReachableShortNames t → hash_table_delete t name = some (t1, rc) → ReachableShortNames t1
  | update {t t1 : hashTable} {name : List Int} {salary : Nat} {rc : Int} :
      ReachableShortNames t → hash_table_update t name salary = some (t1, rc) →
      ReachableShortNames t1

/-! ## Threads on the lock: interleaving model of `rwlock.c` -/

/-- Where a thread stands in the lock protocol.  A thread moves by one step on the
shared lock state at a time: one `sem_wait`, one `sem_post` or one update of
`readers`. -/
inductive Pc
  /-- Outside every lock call; next `sem_wait(&lock)` of `rwlock_acquire_readlock`
  or `sem_wait(&writelock)` of `rwlock_acquire_writelock`. -/
  | idle
  /-- In `rwlock_acquire_readlock` past `sem_wait(&lock)`; next `readers++`. -/
  | acq_incr
  /-- Next `if (readers == 1) sem_wait(&writelock)`. -/
  | acq_test
  /-- Next `sem_post(&lock)`, which ends `rwlock_acquire_readlock`. -/
  | acq_post
  /-- In the locked region of a reader; next `sem_wait(&lock)` of
  `rwlock_release_readlock`. -/
  | read_locked
  /-- In `rwlock_release_readlock` past `sem_wait(&lock)`; next `readers--`. -/
  | rel_decr
  /-- Next `if (readers == 0) sem_post(&writelock)`. -/
  | rel_test
  /-- Next `sem_post(&lock)`, which ends `rwlock_release_readlock`. -/
  | rel_post
  /-- In the locked region of a writer; next `sem_post(&writelock)` of
  `rwlock_release_writelock`. -/
  | write_locked
deriving DecidableEq, Repr

/-- One step of a thread standing at `pc` on lock state `rw`; `none` when the step
is a `sem_wait` on a zero counter (the thread stays blocked).  `as_writer` picks
the call an idle thread enters. -/
def thread_step (rw : rwlock_t) (pc : Pc) (as_writer : Bool) : Option (rwlock_t × Pc) :=
  match pc with
  | Pc.idle =>
    if as_writer then
      match sem_wait rw.writelock with
      | none => none
      | some w => some ({ rw with writelock := w }, Pc.write_locked)
    else
      match sem_wait rw.lock with
      | none => none
      | some l => some ({ rw with lock := l }, Pc.acq_incr)
  | Pc.acq_incr => some ({ rw with readers := rw.readers + 1 }, Pc.acq_test)
  | Pc.acq_test =>
    if rw.readers = 1 then
      match sem_wait rw.writelock with
      | none => none
      | some w => some ({ rw with writelock := w }, Pc.acq_post)
    else
      some (rw, Pc.acq_post)
  | Pc.acq_post => some ({ rw with lock := sem_post rw.lock }, Pc.read_locked)
  | Pc.read_locked =>
    match sem_wait rw.lock with
    | none => none
    | some l => some ({ rw with lock := l }, Pc.rel_decr)
  | Pc.rel_decr => some ({ rw with readers := rw.readers - 1 }, Pc.rel_test)
  | Pc.rel_test =>
    if rw.readers = 0 then
      some ({ rw with writelock := sem_post rw.writelock }, Pc.rel_post)
    else
      some (rw, Pc.rel_post)
  | Pc.rel_post => some ({ rw with lock := sem_post rw.lock }, Pc.idle)
  | Pc.write_locked => some ({ rw with writelock := sem_post rw.writelock }, Pc.idle)

/-- Shared lock state together with the position of every thread. -/
structure LockSys where
  rw : rwlock_t
  pcs : List Pc
deriving DecidableEq, Repr

/-- After `rwlock_init`, with `n` threads that have not called the lock yet. -/
def lock_sys_init (n : Nat) : LockSys :=
  { rw := rwlock_init, pcs := List.replicate n Pc.idle }

/-- Thread `i` takes its next step. -/
def sys_step (st : LockSys) (i : Nat) (as_writer : Bool) : Option LockSys :=
  match st.pcs[i]? with
  | none => none
  | some pc =>
    match thread_step st.rw pc as_writer with
    | none => none
    | some (rw1, pc1) => some { rw := rw1, pcs := st.pcs.set i pc1 }

/-- States of `n` threads reachable from `rwlock_init` under any interleaving. -/
inductive LockReachable (n : Nat) : LockSys → Prop
  | init : LockReachable n (lock_sys_init n)
  | step {st st1 : LockSys} {i : Nat} {as_writer : Bool} :
      LockReachable n st → sys_step st i as_writer = some st1 → LockReachable n st1

/-- Runs a schedule: the list of (thread, choice) pairs, one step each. -/
def sys_run : LockSys → List (Nat × Bool) → Option LockSys
  | st, [] => some st
  | st, (i, w) :: rest =>
    match sys_step st i w with
    | none => none
    | some st1 => sys_run st1 rest

/-- Threads holding the `lock` semaphore. -/
def lock_holders (pcs : List Pc) : Nat :=
  pcs.count Pc.acq_incr + pcs.count Pc.acq_test + pcs.count Pc.acq_post +
    pcs.count Pc.rel_decr + pcs.count Pc.rel_test + pcs.count Pc.rel_post

/-- Threads that have done `readers++` and not yet `readers--`. -/
def counted_readers (pcs : List Pc) : Nat :=
  pcs.count Pc.acq_test + pcs.count Pc.acq_post + pcs.count Pc.read_locked +
    pcs.count Pc.rel_decr

/-- The write semaphore is held on behalf of the readers: a releasing reader is
about to decide on the post, or at least two readers are counted, or one is
counted and is past the wait. -/
def proxy_held (st : LockSys) : Prop :=
  0 < st.pcs.count Pc.rel_test ∨ 2 ≤ st.rw.readers ∨
    (st.rw.readers = 1 ∧ st.pcs.count Pc.acq_test = 0)

/-- Inductive invariant of the interleaving model. -/
def LockInv (st : LockSys) : Prop :=
  st.rw.lock + lock_holders st.pcs = 1 ∧
  st.rw.readers = (counted_readers st.pcs : Int) ∧
  (proxy_held st → st.rw.writelock + st.pcs.count Pc.write_locked = 0) ∧
  (¬ proxy_held st → st.rw.writelock + st.pcs.count Pc.write_locked = 1)


/-! ## The driver: turn sequencer and command dispatch (`chash.c`) -/

/-- `ThreadArgs` without the table pointer (there is one table).  `command` and
`name` are the C strings held in `char command[10]` and `char name[50]`. -/
structure ThreadArgs where
  command : List Int
  name : List Int
  salary : Nat
  priority : Int
deriving DecidableEq, Repr

/-- The string `"INSERT"`. -/
def CMD_INSERT : List Int := [73, 78, 83, 69, 82, 84]

/-- The string `"DELETE"`. -/
def CMD_DELETE : List Int := [68, 69, 76, 69, 84, 69]

/-- The string `"UPDATE"`. -/
def CMD_UPDATE : List Int := [85, 80, 68, 65, 84, 69]

/-- The string `"SEARCH"`. -/
def CMD_SEARCH : List Int := [83, 69, 65, 82, 67, 72]

/-- The string `"PRINT"`. -/
def CMD_PRINT : List Int := [80, 82, 73, 78, 84]

/-- `wait_and_signal_next(my_priority)` as one step on `current_turn`, the mutex
making the test and the increment atomic: `none` while `current_turn !=
my_priority` (the caller stays in `pthread_cond_wait`), otherwise the incremented
counter. -/
def wait_and_signal_next (current_turn my_priority : Int) : Option Int :=
  if current_turn ≠ my_priority then none else some (current_turn + 1)

/-- What the store call made by `thread_routine` gave back. -/
inductive Outcome
  /-- The `int` returned by insert, delete or update. -/
  | status (rc : Int)
  /-- The record returned by search (`none` for `NULL`). -/
  | found (result : Option hashRecord)
  /-- The records written by print. -/
  | printed (out : List hashRecord)
  /-- No `strcmp` matched: no store call. -/
  | skipped
deriving DecidableEq, Repr

/-- Step 2 of `thread_routine`: the `strcmp` chain and the store call it selects. -/
def execute_command
    (qsort : (hashRecord → hashRecord → Int) → List hashRecord → List hashRecord)
    (table : hashTable) (args : ThreadArgs) (malloc_ok : Bool) : Option (hashTable × Outcome) :=
  if args.command = CMD_INSERT then
    match hash_table_insert table args.name args.salary malloc_ok with
    | none => none
    | some (t, rc) => some (t, Outcome.status rc)
  else if args.command = CMD_DELETE then
    match hash_table_delete table args.name with
    | none => none
    | some (t, rc) => some (t, Outcome.status rc)
  else if args.command = CMD_UPDATE then
    match hash_table_update table args.name args.salary with
    | none => none
    | some (t, rc) => some (t, Outcome.status rc)
  else if args.command = CMD_SEARCH then
    match hash_table_search table args.name with
    | none => none
    | some (t, r) => some (t, Outcome.found r)
  else if args.command = CMD_PRINT then
    match hash_table_print qsort table malloc_ok with
    | none => none
    | some (t, out) => some (t, Outcome.printed out)
  else
    some (table, Outcome.skipped)

/-- `thread_routine` run on its own from the counter `current_turn` and the table:
waits for its turn, then executes its command; the result is the counter, the
table and the outcome of the store call. -/
def thread_routine
    (qsort : (hashRecord → hashRecord → Int) → List hashRecord → List hashRecord)
    (current_turn : Int) (table : hashTable) (args : ThreadArgs) (malloc_ok : Bool) :
    Option (Int × hashTable × Outcome) :=
  match wait_and_signal_next current_turn args.priority with
  | none => none
  | some turn =>
    match execute_command qsort table args malloc_ok with
    | none => none
    | some (t, o) => some (turn, t, o)

/-- State of the running program: the turn counter, the table, the workers still
in `wait_and_signal_next`, the workers past it whose store call is still to come,
and the priorities in the order of admission and in the order of the store calls. -/
structure Program where
  current_turn : Int
  table : hashTable
  waiting : List ThreadArgs
  admitted : List ThreadArgs
  admissions : List Int
  executions : List Int
deriving DecidableEq, Repr

/-- The program after `main` created the workers: `current_turn = 1`, empty table. -/
def program_start (workers : List ThreadArgs) : Program :=
  { current_turn := 1, table := hash_table_init, waiting := workers, admitted := [],
    admissions := [], executions := [] }

/-- Worker `w` passes `wait_and_signal_next`. -/
def admit_step (p : Program) (w : ThreadArgs) : Option Program :=
  if w ∈ p.waiting then
    match wait_and_signal_next p.current_turn w.priority with
    | none => none
    | some turn =>
      some { p with current_turn := turn, waiting := p.waiting.erase w,
                    admitted := p.admitted ++ [w],
                    admissions := p.admissions ++ [w.priority] }
  else none

/-- Admitted worker `w` performs its store call (lock acquired, body run, lock
released). -/
def execute_step
    (qsort : (hashRecord → hashRecord → Int) → List hashRecord → List hashRecord)
    (p : Program) (w : ThreadArgs) (malloc_ok : Bool) : Option Program :=
  if w ∈ p.admitted then
    match execute_command qsort p.table w malloc_ok with
    | none => none
    | some (t, _) =>
      some { p with table := t, admitted := p.admitted.erase w,
                    executions := p.executions ++ [w.priority] }
  else none

/-- Program states reachable under any scheduling of the workers. -/
inductive ProgramReachable
    (qsort : (hashRecord → hashRecord → Int) → List hashRecord → List hashRecord)
    (workers : List ThreadArgs) : Program → Prop
  | start : ProgramReachable qsort workers (program_start workers)
  | admission {p p1 : Program} {w : ThreadArgs} :
      ProgramReachable qsort workers p → admit_step p w = some p1 →
      ProgramReachable qsort workers p1
  | execution {p p1 : Program} {w : ThreadArgs} {malloc_ok : Bool} :
      ProgramReachable qsort workers p → execute_step qsort p w malloc_ok = some p1 →
      ProgramReachable qsort workers p1

/-- The priorities 1, 2, ..., `n`. -/
def turns (n : Nat) : List Int :=
  List.map (fun k : Nat => (k : Int)) (List.range' 1 n)

/-- The workers carry the priorities 1..`n`, each once. -/
def PrioritiesOneTo (n : Nat) (workers : List ThreadArgs) : Prop :=
  (workers.map ThreadArgs.priority).Perm (turns n)


/-- Runs the next `k` steps of one thread with no other thread moving. -/
def thread_steps : Nat → rwlock_t → Pc → Bool → Option (rwlock_t × Pc)
  | 0, rw, pc, _ => some (rw, pc)
  | k + 1, rw, pc, w =>
    match thread_step rw pc w with
    | none => none
    | some (rw1, pc1) => thread_steps k rw1 pc1 w

/-! ## The driver: the reading loop of `main` (`chash.c`) -/

/-- The string `"threads"`. -/
def KEYWORD_THREADS : List Int := [116, 104, 114, 101, 97, 100, 115]

/-- `strspn(s, accept)`: the length of the longest start of `s` made of chars that
occur in `accept`. -/
def strspn (s accept : List Int) : Nat :=
  (s.takeWhile (fun c => decide (c ∈ accept))).length

/-- The test under which the reading loop of `main` does `continue`:
`line[0] == '\n' || line[0] == '\r' || strspn(line, " \t\n\r") == strlen(line)
|| strncmp(line, "threads", 7) == 0`. -/
def skip_line (line : List Int) : Bool :=
  decide (line.head? = some 10) || decide (line.head? = some 13) ||
    decide (strspn line [32, 9, 10, 13] = line.length) ||
    decide (line.take 7 = KEYWORD_THREADS)

/-- What the `sscanf` call of `main` does: the number of items assigned, the
string it stores in `args->command` (stored when `items_read ≥ 1`), the string it
stores in `name_buffer` (stored when `items_read ≥ 2`), and `salary_buffer` after
the call (still the initial 0 when no salary was assigned). -/
structure ScanResult where
  items_read : Int
  command : List Int
  name_buffer : List Int
  salary_buffer : Nat
deriving DecidableEq, Repr

/-- The `sscanf` call stayed inside its buffers and left `args->command` a string:
it assigned the command, of at most 9 chars (`char command[10]`), and, when it
assigned a name, one of at most 49 chars (`char name_buffer[50]`).  The format
has no field widths, so a longer field is written past the end of its buffer
(from `args->command` on into the other fields of `*args`, `priority` among
them), and with no item assigned the `toupper` loop reads `args->command` as
`malloc` left it; for those cases the C standard gives the program no meaning. -/
def scan_in_bounds (r : ScanResult) : Bool :=
  decide (1 ≤ r.items_read) && decide (r.command.length ≤ 9) &&
    (decide (r.items_read < 2) || decide (r.name_buffer.length ≤ 49))

/-- `toupper((unsigned char) c)` stored back into a `char`, in the C locale. -/
def toupper (c : Int) : Int :=
  if 97 ≤ c ∧ c ≤ 122 then c - 32 else c

/-- The fields of `*args` at the end of the loop body when `sscanf` stayed inside
its buffers: `priority` as set before the call, the command put in upper case,
the name and the salary as the `items_read` tests select them. -/
def thread_args_of_scan (r : ScanResult) (command_count : Int) : ThreadArgs :=
  { command := r.command.map toupper,
    name := if r.items_read ≥ 2 then r.name_buffer.take 49 else [],
    salary := if r.items_read = 3 then r.salary_buffer else 0,
    priority := command_count + 1 }

/-- Body of the reading loop of `main` after the allocations, for a line that is
not skipped.  `sscanf` is the C library call with the format
`"%[^,],%[^,],%u%*[^\n]"`; the result is `none` when that call does not stay
inside its buffers (undefined behaviour). -/
def make_thread_args (sscanf : List Int → ScanResult) (line : List Int)
    (command_count : Int) : Option ThreadArgs :=
  let r := sscanf line
  if scan_in_bounds r then some (thread_args_of_scan r command_count) else none

/-- How the reading loop of `main` ends. -/
inductive ReadOutcome
  /-- End of file reached: `all_args` and `command_count` after the loop. -/
  | commands (all_args : List ThreadArgs) (command_count : Int)
  /-- An allocation failed: `main` did `return 1`. -/
  | alloc_failure
  /-- A `sscanf` call left its buffers: undefined behaviour. -/
  | undefined
deriving DecidableEq, Repr

/-- The reading loop of `main`, over the strings that the successive `fgets` calls
store in `line`, from the current `all_args` and `command_count`.  `malloc_ok k`
tells whether the three allocations made for the command numbered `k` succeed. -/
def read_commands (sscanf : List Int → ScanResult) (malloc_ok : Int → Bool) :
    List (List Int) → List ThreadArgs → Int → ReadOutcome
  | [], all_args, command_count => ReadOutcome.commands all_args command_count
  | line :: rest, all_args, command_count =>
    if skip_line line then
      read_commands sscanf malloc_ok rest all_args command_count
    else if malloc_ok command_count then
      match make_thread_args sscanf line command_count with
      | some args =>
        read_commands sscanf malloc_ok rest (all_args ++ [args]) (command_count + 1)
      | none => ReadOutcome.undefined
    else
      ReadOutcome.alloc_failure

/-- What the C standard promises of the string stored by `fgets(line, 1024, fp)`:
it is not empty, has at most 1023 chars, and a newline can only be its last
char. -/
def FgetsLine (line : List Int) : Prop :=
  line ≠ [] ∧ line.length ≤ 1023 ∧ 10 ∉ line.dropLast

instance (line : List Int) : Decidable (FgetsLine line) := by
  unfold FgetsLine
  infer_instance

/-- The chars of the line before its first comma. -/
def first_field (line : List Int) : List Int :=
  line.takeWhile (fun c => decide (c ≠ 44))

/-- The chars of the line between its first comma and its second. -/
def second_field (line : List Int) : List Int :=
  ((line.dropWhile (fun c => decide (c ≠ 44))).drop 1).takeWhile (fun c => decide (c ≠ 44))

/-- What the C standard gives for `sscanf(line, "%[^,],%[^,],%u%*[^\n]", ...)`, as
far as the two strings go: the first `%[^,]` is assigned exactly when the line
does not start with a comma (and is not empty) and stores the chars before the
first comma; the second is assigned exactly when moreover a comma and then at
least one other char follow, and stores the chars up to the second comma. -/
def SscanfContract (sscanf : List Int → ScanResult) : Prop :=
  ∀ line,
    (1 ≤ (sscanf line).items_read ↔ first_field line ≠ []) ∧
    (1 ≤ (sscanf line).items_read → (sscanf line).command = first_field line) ∧
    (2 ≤ (sscanf line).items_read ↔ (first_field line ≠ [] ∧ second_field line ≠ [])) ∧
    (2 ≤ (sscanf line).items_read → (sscanf line).name_buffer = second_field line)

/-- The two string fields of the line fit the buffers `sscanf` writes them to:
the first has 1 to 9 chars, the second at most 49. -/
def fields_fit (line : List Int) : Bool :=
  decide (first_field line ≠ []) && decide ((first_field line).length ≤ 9) &&
    decide ((second_field line).length ≤ 49)

/-- As the specification words it: a line is blank when it holds nothing but
white space (spaces, tabs, carriage returns, newlines). -/
def spec_is_blank (line : List Int) : Bool :=
  line.all (fun c => decide (c = 32 ∨ c = 9 ∨ c = 10 ∨ c = 13))

/-- As the specification words it: a line is a command when it is neither blank
nor begins with the configuration keyword `threads`. -/
def spec_is_command_line (line : List Int) : Bool :=
  !spec_is_blank line && !decide (line.take 7 = KEYWORD_THREADS)

/-- As the specification words it: one command per command line, numbered in file
order from `first + 1`. -/
def spec_number_commands (sscanf : List Int → ScanResult) :
    Int → List (List Int) → List ThreadArgs
  | _, [] => []
  | first, line :: rest =>
    thread_args_of_scan (sscanf line) first :: spec_number_commands sscanf (first + 1) rest

/-- The decimal digits at the start of the string, as a number. -/
def scan_digits : List Int → Nat → Nat
  | [], acc => acc
  | c :: rest, acc =>
    if 48 ≤ c ∧ c ≤ 57 then scan_digits rest (acc * 10 + (c - 48).toNat) else acc

/-- An executable stand-in for `sscanf(line, "%[^,],%[^,],%u%*[^\n]", ...)` for
lines whose salary, if any, is an unsigned decimal below 2^32 right after the
second comma: the first field, the second field, and the digits after the second
comma. -/
def sscanf_model (line : List Int) : ScanResult :=
  let rest1 := (line.dropWhile (fun c => decide (c ≠ 44))).drop 1
  let rest2 := (rest1.dropWhile (fun c => decide (c ≠ 44))).drop 1
  if first_field line = [] then
    { items_read := 0, command := [], name_buffer := [], salary_buffer := 0 }
  else if second_field line = [] then
    { items_read := 1, command := first_field line, name_buffer := [], salary_buffer := 0 }
  else if decide (∃ c, rest2.head? = some c ∧ 48 ≤ c ∧ c ≤ 57) then
    { items_read := 3, command := first_field line, name_buffer := second_field line,
      salary_buffer := scan_digits rest2 0 }
  else
    { items_read := 2, command := first_field line, name_buffer := second_field line,
      salary_buffer := 0 }

/-! ## Invariants -/

/-- No two records of the list carry the same hash. -/
def UniqueHashes (s : List hashRecord) : Prop :=
  s.Pairwise (fun a b => a.hash ≠ b.hash)

/-- Invariant of the running program. -/
def ProgramInv (n : Nat) (p : Program) : Prop :=
  p.admissions = turns p.admissions.length ∧
  p.current_turn = (p.admissions.length : Int) + 1 ∧
  (p.waiting.map ThreadArgs.priority ++ p.admissions).Perm (turns n) ∧
  p.table.lock = rwlock_init

/-! ## Lemmas on the lock calls and the list loops -/

theorem acquire_writelock_init :
    rwlock_acquire_writelock rwlock_init = some { writelock := 0, lock := 1, readers := 0 } := by
  rfl

theorem release_writelock_init :
    rwlock_release_writelock { writelock := 0, lock := 1, readers := 0 } = rwlock_init := by
  rfl

theorem acquire_readlock_init :
    rwlock_acquire_readlock rwlock_init = some { writelock := 0, lock := 1, readers := 1 } := by
  rfl

theorem release_readlock_init :
    rwlock_release_readlock { writelock := 0, lock := 1, readers := 1 } = some rwlock_init := by
  rfl

theorem find_record_eq_none_iff (s : List hashRecord) (h : Nat) :
    find_record s h = none ↔ ∀ r ∈ s, r.hash ≠ h := by
  induction s with
  | nil => simp [find_record]
  | cons a s ih =>
    by_cases ha : a.hash = h
    · simp [find_record, ha]
    · simp [find_record, ha, ih]

theorem find_record_eq_some_iff (s : List hashRecord) (h : Nat) (r : hashRecord) :
    find_record s h = some r ↔
      ∃ pre post, s = pre ++ r :: post ∧ r.hash = h ∧ ∀ x ∈ pre, x.hash ≠ h := by
  induction s with
  | nil => simp [find_record]
  | cons a s ih =>
    by_cases ha : a.hash = h
    · simp only [find_record, ha, if_true, Option.some.injEq]
      constructor
      · rintro rfl
        exact ⟨[], s, rfl, ha, by simp⟩
      · rintro ⟨pre, post, hs, hr, hpre⟩
        cases pre with
        | nil => simp at hs; exact hs.1
        | cons b pre =>
          simp at hs
          exact absurd ha (hs.1 ▸ hpre b (by simp))
    · simp only [find_record, ha, if_false, ih]
      constructor
      · rintro ⟨pre, post, hs, hr, hpre⟩
        refine ⟨a :: pre, post, by simp [hs], hr, ?_⟩
        intro x hx
        rcases List.mem_cons.1 hx with rfl | hx
        · exact ha
        · exact hpre x hx
      · rintro ⟨pre, post, hs, hr, hpre⟩
        cases pre with
        | nil => simp at hs; exact absurd hr (hs.1 ▸ ha)
        | cons b pre =>
          simp at hs
          exact ⟨pre, post, hs.2, hr, fun x hx => hpre x (by simp [hx])⟩

theorem find_record_isSome_iff (s : List hashRecord) (h : Nat) :
    (find_record s h).isSome ↔ ∃ r ∈ s, r.hash = h := by
  induction s with
  | nil => simp [find_record]
  | cons a s ih =>
    by_cases ha : a.hash = h
    · simp [find_record, ha]
    · simp [find_record, ha, ih]

theorem hash_table_insert_init_lock (s : List hashRecord) (n : List Int) (v : Nat) (m : Bool) :
    hash_table_insert ⟨s, rwlock_init⟩ n v m =
      match find_record s (jenkins_hash n) with
      | some _ => some (⟨s, rwlock_init⟩, -1)
      | none =>
        if m then some (⟨⟨jenkins_hash n, n.take 49, v⟩ :: s, rwlock_init⟩, 0)
        else some (⟨s, rwlock_init⟩, -1) := by
  simp only [hash_table_insert, acquire_writelock_init, release_writelock_init]

/-! ## Insertion -/

/-- C1: with the allocation succeeding, `hash_table_insert` on a store `s` (free
lock) returns; it returns 0 exactly when no record of `s` has the hash of the
name, and then the table is `s` with the record (hash of the name, first
`min (len n) 49` chars of the name, salary) put in front of it. -/
theorem hash_table_insert_ok_iff_fresh (s : List hashRecord) (n : List Int) (v : Nat) :
    ∃ t rc, hash_table_insert ⟨s, rwlock_init⟩ n v true = some (t, rc) ∧
      (rc = 0 ↔ ∀ r ∈ s, r.hash ≠ jenkins_hash n) ∧
      (rc = 0 → t = ⟨⟨jenkins_hash n, n.take 49, v⟩ :: s, rwlock_init⟩) ∧
      (n.take 49).length = min n.length 49 := by
  rw [hash_table_insert_init_lock]
  cases hf : find_record s (jenkins_hash n) with
  | none =>
    refine ⟨_, _, rfl, ?_, fun _ => rfl, by simp [Nat.min_comm]⟩
    simpa using (find_record_eq_none_iff s _).1 hf
  | some r =>
    refine ⟨_, _, rfl, ?_, by simp, by simp [Nat.min_comm]⟩
    have : ¬ ∀ r ∈ s, r.hash ≠ jenkins_hash n := by
      rw [← find_record_eq_none_iff, hf]; simp
    simpa using this

/-- Witness for C1 (its inner premise): inserting `"B"` into a store holding `"A"`. -/
theorem hash_table_insert_ok_iff_fresh_witness :
    (∀ r ∈ [(⟨jenkins_hash [65], [65], 100⟩ : hashRecord)], r.hash ≠ jenkins_hash [66]) ∧
    ∃ t rc, hash_table_insert ⟨[⟨jenkins_hash [65], [65], 100⟩], rwlock_init⟩ [66] 200 true
        = some (t, rc) ∧
      (rc = 0 ↔ ∀ r ∈ [(⟨jenkins_hash [65], [65], 100⟩ : hashRecord)],
        r.hash ≠ jenkins_hash [66]) ∧
      (rc = 0 → t = ⟨⟨jenkins_hash [66], [66].take 49, 200⟩ ::
        [⟨jenkins_hash [65], [65], 100⟩], rwlock_init⟩) ∧
      ([66].take 49 : List Int).length = min ([66] : List Int).length 49 :=
  ⟨by decide, hash_table_insert_ok_iff_fresh [⟨jenkins_hash [65], [65], 100⟩] [66] 200⟩

theorem delete_loop_eq_none_iff (s : List hashRecord) (h : Nat) :
    delete_loop s h = none ↔ ∀ r ∈ s, r.hash ≠ h := by
  induction s with
  | nil => simp [delete_loop]
  | cons a s ih =>
    by_cases ha : a.hash = h
    · simp [delete_loop, ha]
    · cases hd : delete_loop s h with
      | none => simpa [delete_loop, ha, hd] using ih.1 hd
      | some rest =>
        have : ¬ ∀ r ∈ s, r.hash ≠ h := by rw [← ih, hd]; simp
        simpa [delete_loop, ha, hd] using this

theorem delete_loop_of_mem (s : List hashRecord) (h : Nat) (hm : ∃ r ∈ s, r.hash = h) :
    ∃ pre r post, s = pre ++ r :: post ∧ r.hash = h ∧ (∀ x ∈ pre, x.hash ≠ h) ∧
      delete_loop s h = some (pre ++ post) := by
  induction s with
  | nil => simp at hm
  | cons a s ih =>
    by_cases ha : a.hash = h
    · exact ⟨[], a, s, rfl, ha, by simp, by simp [delete_loop, ha]⟩
    · have hm1 : ∃ r ∈ s, r.hash = h := by
        obtain ⟨r, hr, hrh⟩ := hm
        rcases List.mem_cons.1 hr with rfl | hr
        · exact absurd hrh ha
        · exact ⟨r, hr, hrh⟩
      obtain ⟨pre, r, post, hs, hr, hpre, hd⟩ := ih hm1
      refine ⟨a :: pre, r, post, by simp [hs], hr, ?_, by simp [delete_loop, ha, hd]⟩
      intro x hx
      rcases List.mem_cons.1 hx with rfl | hx
      · exact ha
      · exact hpre x hx

theorem update_loop_eq_none_iff (s : List hashRecord) (h v : Nat) :
    update_loop s h v = none ↔ ∀ r ∈ s, r.hash ≠ h := by
  induction s with
  | nil => simp [update_loop]
  | cons a s ih =>
    by_cases ha : a.hash = h
    · simp [update_loop, ha]
    · cases hd : update_loop s h v with
      | none => simpa [update_loop, ha, hd] using ih.1 hd
      | some rest =>
        have : ¬ ∀ r ∈ s, r.hash ≠ h := by rw [← ih, hd]; simp
        simpa [update_loop, ha, hd] using this

theorem update_loop_of_mem (s : List hashRecord) (h v : Nat) (hm : ∃ r ∈ s, r.hash = h) :
    ∃ pre r post, s = pre ++ r :: post ∧ r.hash = h ∧ (∀ x ∈ pre, x.hash ≠ h) ∧
      update_loop s h v = some (pre ++ { r with salary := v } :: post) := by
  induction s with
  | nil => simp at hm
  | cons a s ih =>
    by_cases ha : a.hash = h
    · exact ⟨[], a, s, rfl, ha, by simp, by simp [update_loop, ha]⟩
    · have hm1 : ∃ r ∈ s, r.hash = h := by
        obtain ⟨r, hr, hrh⟩ := hm
        rcases List.mem_cons.1 hr with rfl | hr
        · exact absurd hrh ha
        · exact ⟨r, hr, hrh⟩
      obtain ⟨pre, r, post, hs, hr, hpre, hd⟩ := ih hm1
      refine ⟨a :: pre, r, post, by simp [hs], hr, ?_, by simp [update_loop, ha, hd]⟩
      intro x hx
      rcases List.mem_cons.1 hx with rfl | hx
      · exact ha
      · exact hpre x hx

theorem hash_table_delete_init_lock (s : List hashRecord) (n : List Int) :
    hash_table_delete ⟨s, rwlock_init⟩ n =
      match delete_loop s (jenkins_hash n) with
      | some rest => some (⟨rest, rwlock_init⟩, 0)
      | none => some (⟨s, rwlock_init⟩, -1) := by
  simp only [hash_table_delete, acquire_writelock_init, release_writelock_init]

theorem hash_table_update_init_lock (s : List hashRecord) (n : List Int) (v : Nat) :
    hash_table_update ⟨s, rwlock_init⟩ n v =
      match update_loop s (jenkins_hash n) v with
      | some rest => some (⟨rest, rwlock_init⟩, 0)
      | none => some (⟨s, rwlock_init⟩, -1) := by
  simp only [hash_table_update, acquire_writelock_init, release_writelock_init]

theorem hash_table_search_init_lock (s : List hashRecord) (n : List Int) :
    hash_table_search ⟨s, rwlock_init⟩ n
      = some (⟨s, rwlock_init⟩, find_record s (jenkins_hash n)) := by
  simp only [hash_table_search, acquire_readlock_init, release_readlock_init]


/-! ## Uniqueness of hashes -/

theorem delete_loop_sublist (s : List hashRecord) (h : Nat) (rest : List hashRecord)
    (hd : delete_loop s h = some rest) : rest.Sublist s := by
  induction s generalizing rest with
  | nil => simp [delete_loop] at hd
  | cons a s ih =>
    by_cases ha : a.hash = h
    · simp [delete_loop, ha] at hd
      subst hd
      exact List.sublist_cons_self _ _
    · cases hd1 : delete_loop s h with
      | none => simp [delete_loop, ha, hd1] at hd
      | some r1 =>
        simp [delete_loop, ha, hd1] at hd
        subst hd
        exact (ih r1 hd1).cons₂ a

theorem update_loop_map_hash (s : List hashRecord) (h v : Nat) (rest : List hashRecord)
    (hu : update_loop s h v = some rest) :
    rest.map hashRecord.hash = s.map hashRecord.hash := by
  induction s generalizing rest with
  | nil => simp [update_loop] at hu
  | cons a s ih =>
    by_cases ha : a.hash = h
    · simp [update_loop, ha] at hu
      subst hu
      simp
      exact ha.symm
    · cases hu1 : update_loop s h v with
      | none => simp [update_loop, ha, hu1] at hu
      | some r1 =>
        simp [update_loop, ha, hu1] at hu
        subst hu
        simp [ih r1 hu1]

theorem uniqueHashes_iff_nodup (s : List hashRecord) :
    UniqueHashes s ↔ (s.map hashRecord.hash).Nodup := by
  unfold UniqueHashes List.Nodup
  rw [List.pairwise_map]

theorem reachable_invariant (t : hashTable) (hr : Reachable t) :
    t.lock = rwlock_init ∧ UniqueHashes t.head := by
  induction hr with
  | init => exact ⟨rfl, List.Pairwise.nil⟩
  | @insert t t1 name salary malloc_ok rc _ hcall ih =>
    obtain ⟨s, lk⟩ := t
    obtain ⟨hl, hu⟩ := ih
    simp only at hl hu
    subst hl
    rw [hash_table_insert_init_lock] at hcall
    cases hf : find_record s (jenkins_hash name) with
    | some r =>
      simp only [hf, Option.some.injEq, Prod.mk.injEq] at hcall
      rw [← hcall.1]
      exact ⟨rfl, hu⟩
    | none =>
      cases malloc_ok with
      | false =>
        simp only [hf, Bool.false_eq_true, if_false, Option.some.injEq, Prod.mk.injEq] at hcall
        rw [← hcall.1]
        exact ⟨rfl, hu⟩
      | true =>
        simp only [hf, if_true, Option.some.injEq, Prod.mk.injEq] at hcall
        rw [← hcall.1]
        refine ⟨rfl, List.Pairwise.cons ?_ hu⟩
        intro r hr
        exact fun h => (find_record_eq_none_iff s _).1 hf r hr h.symm
  | @delete t t1 name rc _ hcall ih =>
    obtain ⟨s, lk⟩ := t
    obtain ⟨hl, hu⟩ := ih
    simp only at hl hu
    subst hl
    rw [hash_table_delete_init_lock] at hcall
    cases hd : delete_loop s (jenkins_hash name) with
    | some rest =>
      simp only [hd, Option.some.injEq, Prod.mk.injEq] at hcall
      rw [← hcall.1]
      exact ⟨rfl, List.Pairwise.sublist (delete_loop_sublist s _ rest hd) hu⟩
    | none =>
      simp only [hd, Option.some.injEq, Prod.mk.injEq] at hcall
      rw [← hcall.1]
      exact ⟨rfl, hu⟩
  | @update t t1 name salary rc _ hcall ih =>
    obtain ⟨s, lk⟩ := t
    obtain ⟨hl, hu⟩ := ih
    simp only at hl hu
    subst hl
    rw [hash_table_update_init_lock] at hcall
    cases hd : update_loop s (jenkins_hash name) salary with
    | some rest =>
      simp only [hd, Option.some.injEq, Prod.mk.injEq] at hcall
      rw [← hcall.1]
      refine ⟨rfl, ?_⟩
      rw [uniqueHashes_iff_nodup] at hu ⊢
      simpa [update_loop_map_hash s _ _ rest hd] using hu
    | none =>
      simp only [hd, Option.some.injEq, Prod.mk.injEq] at hcall
      rw [← hcall.1]
      exact ⟨rfl, hu⟩

/-- C3: in every table reachable from `hash_table_init` by calls of
`hash_table_insert`, `hash_table_delete` and `hash_table_update`, no two records
have the same hash. -/
theorem reachable_unique_hashes (t : hashTable) (hr : Reachable t) :
    t.head.Pairwise (fun a b => a.hash ≠ b.hash) :=
  (reachable_invariant t hr).2

/-- Witness for C3: the table after `INSERT A 100` then `INSERT B 200`. -/
theorem reachable_unique_hashes_witness :
    Reachable ⟨[⟨jenkins_hash [66], [66], 200⟩, ⟨jenkins_hash [65], [65], 100⟩], rwlock_init⟩ ∧
    List.Pairwise (fun a b : hashRecord => a.hash ≠ b.hash)
      [⟨jenkins_hash [66], [66], 200⟩, ⟨jenkins_hash [65], [65], 100⟩] :=
  have h1 : Reachable ⟨[⟨jenkins_hash [65], [65], 100⟩], rwlock_init⟩ :=
    @Reachable.insert hash_table_init _ [65] 100 true 0 Reachable.init (by decide)
  have h2 : Reachable
      ⟨[⟨jenkins_hash [66], [66], 200⟩, ⟨jenkins_hash [65], [65], 100⟩], rwlock_init⟩ :=
    @Reachable.insert _ _ [66] 200 true 0 h1 (by decide)
  ⟨h2, reachable_unique_hashes _ h2⟩


/-! ## The hash function against the one-at-a-time reference -/

theorem jenkins_step_eq_reference_step (h : Nat) (c : Int) (h0 : 0 ≤ c) (h1 : c < 256) :
    jenkins_step h c = reference_step h (byte_of_char c) := by
  have e : (((h : Int) + c) % 4294967296).toNat = (h + byte_of_char c) % 4294967296 := by
    unfold byte_of_char
    omega
  simp only [jenkins_step, reference_step, e]

theorem jenkins_loop_eq_foldl (key : List Int) (h : Nat)
    (hk : ∀ c ∈ key, 0 ≤ c ∧ c < 256) :
    jenkins_loop h key = (key.map byte_of_char).foldl reference_step h := by
  induction key generalizing h with
  | nil => rfl
  | cons c key ih =>
    have hc := hk c (by simp)
    simp only [jenkins_loop, List.map_cons, List.foldl_cons]
    rw [jenkins_step_eq_reference_step h c hc.1 hc.2]
    exact ih _ (fun x hx => hk x (by simp [hx]))

/-- On keys whose `char` values are all non-negative (7-bit text, or any text
where plain `char` is unsigned) `jenkins_hash` is the one-at-a-time reference
hash. -/
theorem jenkins_hash_eq_reference_of_nonneg (key : List Int)
    (hk : ∀ c ∈ key, 0 ≤ c ∧ c < 256) :
    jenkins_hash key = reference_hash key := by
  simp only [jenkins_hash, jenkins_finish, reference_hash, jenkins_loop_eq_foldl key 0 hk]

/-- C4: `jenkins_hash ""` is 0 and `jenkins_hash "a"` is 0xCA2E9442, as the
reference gives; but on the two-byte name 0xC3 0xA9 (UTF-8 "é") held in signed
`char`s (values -61, -87) `jenkins_hash` returns 26298542 while the one-at-a-time
reference over the unsigned bytes 195, 169 is 2928017647. -/
theorem jenkins_hash_signed_char_divergence :
    jenkins_hash [] = 0 ∧ jenkins_hash [97] = 0xCA2E9442 ∧
    byte_of_char (-61) = 0xC3 ∧ byte_of_char (-87) = 0xA9 ∧
    jenkins_hash [-61, -87] = 26298542 ∧ reference_hash [-61, -87] = 2928017647 ∧
    jenkins_hash [-61, -87] ≠ reference_hash [-61, -87] := by
  decide

/-! ## Deletion -/

/-- C5: when no record of `s` has the hash of the name, `hash_table_delete`
returns -1 and the table, hence its record count, is as before. -/
theorem hash_table_delete_absent (s : List hashRecord) (n : List Int)
    (h : ∀ r ∈ s, r.hash ≠ jenkins_hash n) :
    ∃ t, hash_table_delete ⟨s, rwlock_init⟩ n = some (t, -1) ∧
      t = ⟨s, rwlock_init⟩ ∧ t.head.length = s.length := by
  rw [hash_table_delete_init_lock, (delete_loop_eq_none_iff s _).2 h]
  exact ⟨_, rfl, rfl, rfl⟩

/-- Witness for C5: `DELETE B` on the store holding only `"A"`. -/
theorem hash_table_delete_absent_witness :
    (∀ r ∈ [(⟨jenkins_hash [65], [65], 100⟩ : hashRecord)], r.hash ≠ jenkins_hash [66]) ∧
    ∃ t, hash_table_delete ⟨[⟨jenkins_hash [65], [65], 100⟩], rwlock_init⟩ [66] = some (t, -1) ∧
      t = ⟨[⟨jenkins_hash [65], [65], 100⟩], rwlock_init⟩ ∧
      t.head.length = [(⟨jenkins_hash [65], [65], 100⟩ : hashRecord)].length :=
  ⟨by decide, hash_table_delete_absent [⟨jenkins_hash [65], [65], 100⟩] [66] (by decide)⟩

/-- C6: when some record of `s` has the hash of the name, `hash_table_delete`
returns 0 and the table is `s` without the first record of that hash: `s` splits
as `pre ++ r :: post` with `r` of that hash and none in `pre`, and the result is
`pre ++ post`, one record shorter. -/
theorem hash_table_delete_present (s : List hashRecord) (n : List Int)
    (h : ∃ r ∈ s, r.hash = jenkins_hash n) :
    ∃ pre r post, s = pre ++ r :: post ∧ r.hash = jenkins_hash n ∧
      (∀ x ∈ pre, x.hash ≠ jenkins_hash n) ∧
      hash_table_delete ⟨s, rwlock_init⟩ n = some (⟨pre ++ post, rwlock_init⟩, 0) ∧
      (pre ++ post).length + 1 = s.length := by
  obtain ⟨pre, r, post, hs, hr, hpre, hd⟩ := delete_loop_of_mem s _ h
  refine ⟨pre, r, post, hs, hr, hpre, ?_, ?_⟩
  · rw [hash_table_delete_init_lock, hd]
  · rw [hs]; simp; omega

/-- Witness for C6: `DELETE A` on the store `[B, A, C]`. -/
theorem hash_table_delete_present_witness :
    (∃ r ∈ [(⟨jenkins_hash [66], [66], 200⟩ : hashRecord), ⟨jenkins_hash [65], [65], 100⟩,
        ⟨jenkins_hash [67], [67], 300⟩], r.hash = jenkins_hash [65]) ∧
    ∃ pre r post,
      [(⟨jenkins_hash [66], [66], 200⟩ : hashRecord), ⟨jenkins_hash [65], [65], 100⟩,
        ⟨jenkins_hash [67], [67], 300⟩] = pre ++ r :: post ∧
      r.hash = jenkins_hash [65] ∧ (∀ x ∈ pre, x.hash ≠ jenkins_hash [65]) ∧
      hash_table_delete ⟨[⟨jenkins_hash [66], [66], 200⟩, ⟨jenkins_hash [65], [65], 100⟩,
        ⟨jenkins_hash [67], [67], 300⟩], rwlock_init⟩ [65]
        = some (⟨pre ++ post, rwlock_init⟩, 0) ∧
      (pre ++ post).length + 1
        = [(⟨jenkins_hash [66], [66], 200⟩ : hashRecord), ⟨jenkins_hash [65], [65], 100⟩,
            ⟨jenkins_hash [67], [67], 300⟩].length :=
  ⟨⟨⟨jenkins_hash [65], [65], 100⟩, by decide, rfl⟩,
   hash_table_delete_present _ [65] ⟨⟨jenkins_hash [65], [65], 100⟩, by decide, rfl⟩⟩


/-! ## Update and search -/

/-- C7: when some record of `s` has the hash of the name, `hash_table_update`
returns 0 and the table is `s` with the salary of the first record of that hash
set to `v`: `s` splits as `pre ++ r :: post` with `r` of that hash and none in
`pre`, and the result is `pre ++ r' :: post` where `r'` has the hash and name of
`r` and salary `v`; the number of records is the same. -/
theorem hash_table_update_present (s : List hashRecord) (n : List Int) (v : Nat)
    (h : ∃ r ∈ s, r.hash = jenkins_hash n) :
    ∃ pre r post, s = pre ++ r :: post ∧ r.hash = jenkins_hash n ∧
      (∀ x ∈ pre, x.hash ≠ jenkins_hash n) ∧
      hash_table_update ⟨s, rwlock_init⟩ n v
        = some (⟨pre ++ ⟨r.hash, r.name, v⟩ :: post, rwlock_init⟩, 0) ∧
      (pre ++ ⟨r.hash, r.name, v⟩ :: post).length = s.length := by
  obtain ⟨pre, r, post, hs, hr, hpre, hd⟩ := update_loop_of_mem s _ v h
  refine ⟨pre, r, post, hs, hr, hpre, ?_, ?_⟩
  · rw [hash_table_update_init_lock, hd]
  · rw [hs]; simp

/-- Witness for C7: `UPDATE A 555` on the store `[B, A, C]`. -/
theorem hash_table_update_present_witness :
    (∃ r ∈ [(⟨jenkins_hash [66], [66], 200⟩ : hashRecord), ⟨jenkins_hash [65], [65], 100⟩,
        ⟨jenkins_hash [67], [67], 300⟩], r.hash = jenkins_hash [65]) ∧
    ∃ pre r post,
      [(⟨jenkins_hash [66], [66], 200⟩ : hashRecord), ⟨jenkins_hash [65], [65], 100⟩,
        ⟨jenkins_hash [67], [67], 300⟩] = pre ++ r :: post ∧
      r.hash = jenkins_hash [65] ∧ (∀ x ∈ pre, x.hash ≠ jenkins_hash [65]) ∧
      hash_table_update ⟨[⟨jenkins_hash [66], [66], 200⟩, ⟨jenkins_hash [65], [65], 100⟩,
        ⟨jenkins_hash [67], [67], 300⟩], rwlock_init⟩ [65] 555
        = some (⟨pre ++ ⟨r.hash, r.name, 555⟩ :: post, rwlock_init⟩, 0) ∧
      (pre ++ ⟨r.hash, r.name, 555⟩ :: post).length
        = [(⟨jenkins_hash [66], [66], 200⟩ : hashRecord), ⟨jenkins_hash [65], [65], 100⟩,
            ⟨jenkins_hash [67], [67], 300⟩].length :=
  ⟨⟨⟨jenkins_hash [65], [65], 100⟩, by decide, rfl⟩,
   hash_table_update_present _ [65] 555 ⟨⟨jenkins_hash [65], [65], 100⟩, by decide, rfl⟩⟩

/-- C8: when no record of `s` has the hash of the name, `hash_table_update`
returns -1 and `hash_table_search` returns `NULL`, each leaving the table as it
was; and `UPDATE X 500` on the empty store returns -1 and leaves it empty. -/
theorem hash_table_update_search_absent (s : List hashRecord) (n : List Int) (v : Nat)
    (h : ∀ r ∈ s, r.hash ≠ jenkins_hash n) :
    hash_table_update ⟨s, rwlock_init⟩ n v = some (⟨s, rwlock_init⟩, -1) ∧
    hash_table_search ⟨s, rwlock_init⟩ n = some (⟨s, rwlock_init⟩, none) ∧
    ∀ x : List Int, hash_table_update hash_table_init x 500 = some (hash_table_init, -1) := by
  refine ⟨?_, ?_, ?_⟩
  · rw [hash_table_update_init_lock, (update_loop_eq_none_iff s _ v).2 h]
  · rw [hash_table_search_init_lock, (find_record_eq_none_iff s _).2 h]
  · intro x
    simp only [hash_table_init, hash_table_update_init_lock, update_loop]

/-- Witness for C8: `UPDATE B 500` and `SEARCH B` on the store holding only `"A"`. -/
theorem hash_table_update_search_absent_witness :
    (∀ r ∈ [(⟨jenkins_hash [65], [65], 100⟩ : hashRecord)], r.hash ≠ jenkins_hash [66]) ∧
    hash_table_update ⟨[⟨jenkins_hash [65], [65], 100⟩], rwlock_init⟩ [66] 500
      = some (⟨[⟨jenkins_hash [65], [65], 100⟩], rwlock_init⟩, -1) ∧
    hash_table_search ⟨[⟨jenkins_hash [65], [65], 100⟩], rwlock_init⟩ [66]
      = some (⟨[⟨jenkins_hash [65], [65], 100⟩], rwlock_init⟩, none) ∧
    ∀ x : List Int, hash_table_update hash_table_init x 500 = some (hash_table_init, -1) :=
  ⟨by decide,
   hash_table_update_search_absent [⟨jenkins_hash [65], [65], 100⟩] [66] 500 (by decide)⟩

/-- C9: `hash_table_search` returns and leaves the table as it was; it returns a
record exactly when some record of `s` has the hash of the name, and the record
returned is the first of `s` with that hash: `s` splits as `pre ++ r :: post`
with `r` the returned record, of that hash, and no record of that hash in `pre`. -/
theorem hash_table_search_first_match (s : List hashRecord) (n : List Int) :
    ∃ result, hash_table_search ⟨s, rwlock_init⟩ n = some (⟨s, rwlock_init⟩, result) ∧
      (result.isSome ↔ ∃ r ∈ s, r.hash = jenkins_hash n) ∧
      ∀ r, result = some r →
        ∃ pre post, s = pre ++ r :: post ∧ r.hash = jenkins_hash n ∧
          ∀ x ∈ pre, x.hash ≠ jenkins_hash n := by
  refine ⟨find_record s (jenkins_hash n), hash_table_search_init_lock s n,
    find_record_isSome_iff s _, ?_⟩
  intro r hr
  exact (find_record_eq_some_iff s _ r).1 hr

/-- Witness for C9 (its inner premise): `SEARCH A` on `[B, A, C]` returns the
record of `"A"`. -/
theorem hash_table_search_first_match_witness :
    hash_table_search ⟨[⟨jenkins_hash [66], [66], 200⟩, ⟨jenkins_hash [65], [65], 100⟩,
        ⟨jenkins_hash [67], [67], 300⟩], rwlock_init⟩ [65]
      = some (⟨[⟨jenkins_hash [66], [66], 200⟩, ⟨jenkins_hash [65], [65], 100⟩,
        ⟨jenkins_hash [67], [67], 300⟩], rwlock_init⟩, some ⟨jenkins_hash [65], [65], 100⟩) ∧
    ∃ result, hash_table_search ⟨[⟨jenkins_hash [66], [66], 200⟩,
        ⟨jenkins_hash [65], [65], 100⟩, ⟨jenkins_hash [67], [67], 300⟩], rwlock_init⟩ [65]
        = some (⟨[⟨jenkins_hash [66], [66], 200⟩, ⟨jenkins_hash [65], [65], 100⟩,
          ⟨jenkins_hash [67], [67], 300⟩], rwlock_init⟩, result) ∧
      (result.isSome ↔ ∃ r ∈ [(⟨jenkins_hash [66], [66], 200⟩ : hashRecord),
        ⟨jenkins_hash [65], [65], 100⟩, ⟨jenkins_hash [67], [67], 300⟩],
        r.hash = jenkins_hash [65]) ∧
      ∀ r, result = some r →
        ∃ pre post, [(⟨jenkins_hash [66], [66], 200⟩ : hashRecord),
          ⟨jenkins_hash [65], [65], 100⟩, ⟨jenkins_hash [67], [67], 300⟩] = pre ++ r :: post ∧
          r.hash = jenkins_hash [65] ∧ ∀ x ∈ pre, x.hash ≠ jenkins_hash [65] :=
  ⟨by decide, hash_table_search_first_match _ [65]⟩


/-! ## Printing -/

theorem count_records_eq_length (s : List hashRecord) : count_records s = s.length := by
  induction s with
  | nil => rfl
  | cons a s ih => simp [count_records, ih]

theorem fill_array_count (s : List hashRecord) : fill_array (count_records s) s = s := by
  induction s with
  | nil => rfl
  | cons a s ih => simp [count_records, fill_array, ih]

theorem compare_records_le_zero_iff (a b : hashRecord) :
    compare_records a b ≤ 0 ↔ a.hash ≤ b.hash := by
  unfold compare_records
  split_ifs with h1 h2
  · simp; omega
  · simp; omega
  · simp; omega

theorem sorted_insert_perm (cmp : hashRecord → hashRecord → Int) (x : hashRecord)
    (l : List hashRecord) : (sorted_insert cmp x l).Perm (x :: l) := by
  induction l with
  | nil => exact List.Perm.refl _
  | cons y ys ih =>
    unfold sorted_insert
    split_ifs
    · exact List.Perm.refl _
    · exact ((List.Perm.cons y ih).trans (List.Perm.swap x y ys))

theorem qsort_model_perm (cmp : hashRecord → hashRecord → Int) (l : List hashRecord) :
    (qsort_model cmp l).Perm l := by
  induction l with
  | nil => exact List.Perm.refl _
  | cons x xs ih =>
    exact (sorted_insert_perm cmp x (qsort_model cmp xs)).trans (List.Perm.cons x ih)

theorem sorted_insert_pairwise (x : hashRecord) (l : List hashRecord)
    (hl : l.Pairwise (fun a b => compare_records a b ≤ 0)) :
    (sorted_insert compare_records x l).Pairwise (fun a b => compare_records a b ≤ 0) := by
  induction l with
  | nil => simp [sorted_insert]
  | cons y ys ih =>
    obtain ⟨hy, hys⟩ := List.pairwise_cons.1 hl
    unfold sorted_insert
    split_ifs with hxy
    · refine List.Pairwise.cons ?_ hl
      intro z hz
      rcases List.mem_cons.1 hz with rfl | hz
      · exact hxy
      · have := hy z hz
        rw [compare_records_le_zero_iff] at this hxy ⊢
        omega
    · refine List.Pairwise.cons ?_ (ih hys)
      intro z hz
      rcases List.mem_cons.1 ((sorted_insert_perm compare_records x ys).subset hz) with rfl | hz
      · rw [compare_records_le_zero_iff] at hxy ⊢
        omega
      · exact hy z hz

/-- The executable sort meets the `qsort` contract for `compare_records`. -/
theorem qsort_model_contract : QsortContract qsort_model compare_records := by
  intro xs
  refine ⟨qsort_model_perm _ xs, ?_⟩
  induction xs with
  | nil => exact List.Pairwise.nil
  | cons x xs ih => exact sorted_insert_pairwise x _ ih

theorem hash_table_print_init_lock
    (qsort : (hashRecord → hashRecord → Int) → List hashRecord → List hashRecord)
    (s : List hashRecord) (m : Bool) :
    hash_table_print qsort ⟨s, rwlock_init⟩ m =
      some (⟨s, rwlock_init⟩,
        if s = [] then [] else if m then qsort compare_records s else []) := by
  simp only [hash_table_print, acquire_readlock_init, release_readlock_init,
    fill_array_count]
  cases s with
  | nil => simp [count_records]
  | cons a s => cases m <;> simp [count_records]

/-- C10, as stated, fails when the array allocation fails: on the store holding the
one record of `"A"` the call returns having written no record, which is not a
permutation of the store. -/
theorem hash_table_print_malloc_failure :
    ∃ out, hash_table_print qsort_model ⟨[⟨jenkins_hash [65], [65], 100⟩], rwlock_init⟩ false
        = some (⟨[⟨jenkins_hash [65], [65], 100⟩], rwlock_init⟩, out) ∧
      out = [] ∧ ¬ out.Perm [⟨jenkins_hash [65], [65], 100⟩] :=
  ⟨[], by decide, rfl, by simp⟩

/-- C10 (amended): for every `qsort` meeting the C library contract and every
store `s`, when the store is empty or the array allocation succeeds, the records
written by `hash_table_print` are a permutation of the records of `s` (same
length) in non-decreasing order of hash; and in every case the call returns with
the table as it was. -/
theorem hash_table_print_sorted_perm
    (qsort : (hashRecord → hashRecord → Int) → List hashRecord → List hashRecord)
    (hq : QsortContract qsort compare_records) (s : List hashRecord) (malloc_ok : Bool)
    (hm : s = [] ∨ malloc_ok = true) :
    (∃ out, hash_table_print qsort ⟨s, rwlock_init⟩ malloc_ok = some (⟨s, rwlock_init⟩, out) ∧
      out.Perm s ∧ out.length = s.length ∧ out.Pairwise (fun a b => a.hash ≤ b.hash)) ∧
    ∀ m, ∃ out, hash_table_print qsort ⟨s, rwlock_init⟩ m = some (⟨s, rwlock_init⟩, out) := by
  refine ⟨⟨_, hash_table_print_init_lock qsort s malloc_ok, ?_⟩,
    fun m => ⟨_, hash_table_print_init_lock qsort s m⟩⟩
  by_cases hs : s = []
  · subst hs
    simp
  · have hmt : malloc_ok = true := hm.resolve_left hs
    simp only [hs, hmt, if_false, if_true]
    obtain ⟨hp, hsorted⟩ := hq s
    refine ⟨hp, hp.length_eq, hsorted.imp ?_⟩
    intro a b hab
    exact (compare_records_le_zero_iff a b).1 hab

/-- Witness for C10 (amended): printing the store `[B, A, C]` with the executable
sort and a successful allocation. -/
theorem hash_table_print_sorted_perm_witness :
    QsortContract qsort_model compare_records ∧
    (([(⟨jenkins_hash [66], [66], 200⟩ : hashRecord), ⟨jenkins_hash [65], [65], 100⟩,
        ⟨jenkins_hash [67], [67], 300⟩] = []) ∨ true = true) ∧
    hash_table_print qsort_model ⟨[⟨jenkins_hash [66], [66], 200⟩,
        ⟨jenkins_hash [65], [65], 100⟩, ⟨jenkins_hash [67], [67], 300⟩], rwlock_init⟩ true
      = some (⟨[⟨jenkins_hash [66], [66], 200⟩, ⟨jenkins_hash [65], [65], 100⟩,
          ⟨jenkins_hash [67], [67], 300⟩], rwlock_init⟩,
        [⟨jenkins_hash [65], [65], 100⟩, ⟨jenkins_hash [67], [67], 300⟩,
          ⟨jenkins_hash [66], [66], 200⟩]) ∧
    ((∃ out, hash_table_print qsort_model ⟨[⟨jenkins_hash [66], [66], 200⟩,
        ⟨jenkins_hash [65], [65], 100⟩, ⟨jenkins_hash [67], [67], 300⟩], rwlock_init⟩ true
        = some (⟨[⟨jenkins_hash [66], [66], 200⟩, ⟨jenkins_hash [65], [65], 100⟩,
          ⟨jenkins_hash [67], [67], 300⟩], rwlock_init⟩, out) ∧
      out.Perm [⟨jenkins_hash [66], [66], 200⟩, ⟨jenkins_hash [65], [65], 100⟩,
          ⟨jenkins_hash [67], [67], 300⟩] ∧
      out.length = [(⟨jenkins_hash [66], [66], 200⟩ : hashRecord),
          ⟨jenkins_hash [65], [65], 100⟩, ⟨jenkins_hash [67], [67], 300⟩].length ∧
      out.Pairwise (fun a b => a.hash ≤ b.hash)) ∧
    ∀ m, ∃ out, hash_table_print qsort_model ⟨[⟨jenkins_hash [66], [66], 200⟩,
        ⟨jenkins_hash [65], [65], 100⟩, ⟨jenkins_hash [67], [67], 300⟩], rwlock_init⟩ m
        = some (⟨[⟨jenkins_hash [66], [66], 200⟩, ⟨jenkins_hash [65], [65], 100⟩,
          ⟨jenkins_hash [67], [67], 300⟩], rwlock_init⟩, out)) :=
  ⟨qsort_model_contract, Or.inr rfl, by decide,
   hash_table_print_sorted_perm qsort_model qsort_model_contract _ true (Or.inr rfl)⟩


/-! ## Hash identity -/

theorem hash_table_insert_of_hash_mem (s : List hashRecord) (n : List Int) (v : Nat) (m : Bool)
    (h : ∃ r ∈ s, r.hash = jenkins_hash n) :
    hash_table_insert ⟨s, rwlock_init⟩ n v m = some (⟨s, rwlock_init⟩, -1) := by
  rw [hash_table_insert_init_lock]
  cases hf : find_record s (jenkins_hash n) with
  | none => rw [← find_record_isSome_iff, hf] at h; simp at h
  | some r => rfl

/-- C11: two names with the same hash are the same key.  For every table (any lock
state) and salary, `hash_table_delete`, `hash_table_update` and
`hash_table_search` give the same result (status or record, and table) for `n1`
as for `n2`; and whenever a record carrying the hash of `n1` is in the store,
`hash_table_insert` of `n2` returns -1 and leaves the table as it was. -/
theorem hash_identity (n1 n2 : List Int) (h : jenkins_hash n1 = jenkins_hash n2) :
    (∀ (t : hashTable) (v : Nat),
      hash_table_delete t n1 = hash_table_delete t n2 ∧
      hash_table_update t n1 v = hash_table_update t n2 v ∧
      hash_table_search t n1 = hash_table_search t n2) ∧
    (∀ (s : List hashRecord) (v : Nat) (m : Bool), (∃ r ∈ s, r.hash = jenkins_hash n1) →
      hash_table_insert ⟨s, rwlock_init⟩ n2 v m = some (⟨s, rwlock_init⟩, -1)) := by
  refine ⟨fun t v => ⟨?_, ?_, ?_⟩, fun s v m hm => ?_⟩
  · simp only [hash_table_delete, h]
  · simp only [hash_table_update, h]
  · simp only [hash_table_search, h]
  · exact hash_table_insert_of_hash_mem s n2 v m (h ▸ hm)

/-- Witness for C11: the distinct names `"AXCU"` and `"EMAA"` both hash to
2213926949. -/
theorem hash_identity_witness :
    ([65, 88, 67, 85] : List Int) ≠ [69, 77, 65, 65] ∧
    jenkins_hash [65, 88, 67, 85] = 2213926949 ∧
    jenkins_hash [65, 88, 67, 85] = jenkins_hash [69, 77, 65, 65] ∧
    (∀ (t : hashTable) (v : Nat),
      hash_table_delete t [65, 88, 67, 85] = hash_table_delete t [69, 77, 65, 65] ∧
      hash_table_update t [65, 88, 67, 85] v = hash_table_update t [69, 77, 65, 65] v ∧
      hash_table_search t [65, 88, 67, 85] = hash_table_search t [69, 77, 65, 65]) ∧
    (∀ (s : List hashRecord) (v : Nat) (m : Bool),
      (∃ r ∈ s, r.hash = jenkins_hash [65, 88, 67, 85]) →
      hash_table_insert ⟨s, rwlock_init⟩ [69, 77, 65, 65] v m = some (⟨s, rwlock_init⟩, -1)) :=
  ⟨by decide, by decide, by decide,
   hash_identity [65, 88, 67, 85] [69, 77, 65, 65] (by decide)⟩


/-! ## Lock calls on an explicit lock state -/

theorem write_lock_cycle (lk : rwlock_t) (h : 0 < lk.writelock) :
    ∃ lk1, rwlock_acquire_writelock lk = some lk1 ∧ rwlock_release_writelock lk1 = lk := by
  obtain ⟨w, l, r⟩ := lk
  simp only at h
  refine ⟨⟨w - 1, l, r⟩, ?_, ?_⟩
  · simp [rwlock_acquire_writelock, sem_wait, Nat.pos_iff_ne_zero.1 h]
  · simp only [rwlock_release_writelock, sem_post, rwlock_t.mk.injEq, and_true]
    omega

theorem write_lock_blocked (lk : rwlock_t) (h : lk.writelock = 0) :
    rwlock_acquire_writelock lk = none := by
  simp [rwlock_acquire_writelock, sem_wait, h]

theorem read_lock_cycle (lk : rwlock_t) (hl : 0 < lk.lock)
    (hw : lk.readers = 0 → 0 < lk.writelock) :
    ∃ lk1, rwlock_acquire_readlock lk = some lk1 ∧ rwlock_release_readlock lk1 = some lk := by
  obtain ⟨w, l, r⟩ := lk
  simp only at hl hw
  have hl0 : l ≠ 0 := Nat.pos_iff_ne_zero.1 hl
  have hl1 : l - 1 + 1 = l := by omega
  by_cases hr : r = 0
  · subst hr
    have hw0 : w ≠ 0 := Nat.pos_iff_ne_zero.1 (hw rfl)
    have hw1 : w - 1 + 1 = w := by omega
    refine ⟨⟨w - 1, l, 1⟩, ?_, ?_⟩
    · simp [rwlock_acquire_readlock, sem_wait, sem_post, hl0, hw0, hl1]
    · simp [rwlock_release_readlock, sem_wait, sem_post, hl0, hw1, hl1]
  · have hr1 : r + 1 ≠ 1 := by omega
    refine ⟨⟨w, l, r + 1⟩, ?_, ?_⟩
    · simp [rwlock_acquire_readlock, sem_wait, sem_post, hl0, hr, hl1]
    · simp [rwlock_release_readlock, sem_wait, sem_post, hl0, hr, hl1]

theorem read_lock_blocked (lk : rwlock_t) (h : lk.lock = 0) :
    rwlock_acquire_readlock lk = none := by
  simp [rwlock_acquire_readlock, sem_wait, h]

/-- C15: on an explicit lock state whose counter semaphore is free,
`rwlock_acquire_readlock` returns (unless it is the first reader and the write
semaphore is 0, where it blocks) with `readers` one higher, the `lock` semaphore
at its old value, and the `writelock` semaphore one lower exactly when `readers`
was 0 before the call (1 becomes 0), unchanged otherwise;
`rwlock_release_readlock` returns with `readers` one lower, `lock` at its old
value, and `writelock` one higher exactly when `readers` is 0 after the
decrement, unchanged otherwise. -/
theorem readlock_writelock_on_edge_only (rw : rwlock_t) (hl : 0 < rw.lock) :
    ((rw.readers = 0 → 0 < rw.writelock) →
      ∃ rw1, rwlock_acquire_readlock rw = some rw1 ∧
        rw1.readers = rw.readers + 1 ∧ rw1.lock = rw.lock ∧
        (rw.readers = 0 → rw1.writelock + 1 = rw.writelock) ∧
        (rw.readers = 0 → rw.writelock = 1 → rw1.writelock = 0) ∧
        (rw.readers ≠ 0 → rw1.writelock = rw.writelock)) ∧
    (rw.readers = 0 → rw.writelock = 0 → rwlock_acquire_readlock rw = none) ∧
    (∃ rw2, rwlock_release_readlock rw = some rw2 ∧
      rw2.readers = rw.readers - 1 ∧ rw2.lock = rw.lock ∧
      (rw2.readers = 0 → rw2.writelock = rw.writelock + 1) ∧
      (rw2.readers ≠ 0 → rw2.writelock = rw.writelock)) := by
  obtain ⟨w, l, r⟩ := rw
  simp only at hl
  have hl0 : l ≠ 0 := Nat.pos_iff_ne_zero.1 hl
  have hl1 : l - 1 + 1 = l := by omega
  refine ⟨?_, ?_, ?_⟩
  · intro hw
    by_cases hr : r = 0
    · subst hr
      have hw0 : w ≠ 0 := Nat.pos_iff_ne_zero.1 (hw rfl)
      refine ⟨⟨w - 1, l, 1⟩, ?_, by simp, rfl, ?_, ?_, by simp⟩
      · simp [rwlock_acquire_readlock, sem_wait, sem_post, hl0, hw0, hl1]
      · intro _; simp only; omega
      · intro _ h1; simp only at h1 ⊢; omega
    · have hr1 : r + 1 ≠ 1 := by omega
      refine ⟨⟨w, l, r + 1⟩, ?_, rfl, rfl, ?_, ?_, fun _ => rfl⟩
      · simp [rwlock_acquire_readlock, sem_wait, sem_post, hl0, hr, hl1]
      · intro h0; exact absurd h0 hr
      · intro h0; exact absurd h0 hr
  · intro hr hw
    simp only at hr hw
    subst hr; subst hw
    simp [rwlock_acquire_readlock, sem_wait, hl0]
  · by_cases hr : r - 1 = 0
    · refine ⟨⟨w + 1, l, r - 1⟩, ?_, rfl, rfl, fun _ => rfl, fun h0 => absurd hr h0⟩
      simp [rwlock_release_readlock, sem_wait, sem_post, hl0, hr, hl1]
    · refine ⟨⟨w, l, r - 1⟩, ?_, rfl, rfl, fun h0 => absurd h0 hr, fun _ => rfl⟩
      simp [rwlock_release_readlock, sem_wait, sem_post, hl0, hr, hl1]

/-- Witness for C15: the first reader on the fresh lock. -/
theorem readlock_writelock_on_edge_only_witness :
    0 < rwlock_init.lock ∧ (rwlock_init.readers = 0 → 0 < rwlock_init.writelock) ∧
    rwlock_acquire_readlock rwlock_init = some ⟨0, 1, 1⟩ ∧
    rwlock_release_readlock ⟨0, 1, 1⟩ = some rwlock_init ∧
    ∃ rw1, rwlock_acquire_readlock rwlock_init = some rw1 ∧
      rw1.readers = rwlock_init.readers + 1 ∧ rw1.lock = rwlock_init.lock ∧
      (rwlock_init.readers = 0 → rw1.writelock + 1 = rwlock_init.writelock) ∧
      (rwlock_init.readers = 0 → rwlock_init.writelock = 1 → rw1.writelock = 0) ∧
      (rwlock_init.readers ≠ 0 → rw1.writelock = rwlock_init.writelock) :=
  ⟨by decide, by decide, by decide, by decide,
   (readlock_writelock_on_edge_only rwlock_init (by decide)).1 (by decide)⟩


/-! ## Lock balance of the store calls -/

theorem hash_table_insert_lock (s : List hashRecord) (lk : rwlock_t) (n : List Int) (v : Nat)
    (m : Bool) (h : 0 < lk.writelock) :
    ∃ t rc, hash_table_insert ⟨s, lk⟩ n v m = some (t, rc) ∧ t.lock = lk := by
  obtain ⟨lk1, ha, hr⟩ := write_lock_cycle lk h
  simp only [hash_table_insert, ha, hr]
  cases find_record s (jenkins_hash n) with
  | some r => exact ⟨_, _, rfl, rfl⟩
  | none => cases m <;> exact ⟨_, _, rfl, rfl⟩

theorem hash_table_delete_lock (s : List hashRecord) (lk : rwlock_t) (n : List Int)
    (h : 0 < lk.writelock) :
    ∃ t rc, hash_table_delete ⟨s, lk⟩ n = some (t, rc) ∧ t.lock = lk := by
  obtain ⟨lk1, ha, hr⟩ := write_lock_cycle lk h
  simp only [hash_table_delete, ha, hr]
  cases delete_loop s (jenkins_hash n) <;> exact ⟨_, _, rfl, rfl⟩

theorem hash_table_update_lock (s : List hashRecord) (lk : rwlock_t) (n : List Int) (v : Nat)
    (h : 0 < lk.writelock) :
    ∃ t rc, hash_table_update ⟨s, lk⟩ n v = some (t, rc) ∧ t.lock = lk := by
  obtain ⟨lk1, ha, hr⟩ := write_lock_cycle lk h
  simp only [hash_table_update, ha, hr]
  cases update_loop s (jenkins_hash n) v <;> exact ⟨_, _, rfl, rfl⟩

theorem hash_table_search_lock (s : List hashRecord) (lk : rwlock_t) (n : List Int)
    (hl : 0 < lk.lock) (hw : lk.readers = 0 → 0 < lk.writelock) :
    ∃ t r, hash_table_search ⟨s, lk⟩ n = some (t, r) ∧ t.lock = lk := by
  obtain ⟨lk1, ha, hr⟩ := read_lock_cycle lk hl hw
  simp only [hash_table_search, ha, hr]
  exact ⟨_, _, rfl, rfl⟩

theorem hash_table_print_lock
    (qsort : (hashRecord → hashRecord → Int) → List hashRecord → List hashRecord)
    (s : List hashRecord) (lk : rwlock_t) (m : Bool)
    (hl : 0 < lk.lock) (hw : lk.readers = 0 → 0 < lk.writelock) :
    ∃ t out, hash_table_print qsort ⟨s, lk⟩ m = some (t, out) ∧ t.lock = lk := by
  obtain ⟨lk1, ha, hr⟩ := read_lock_cycle lk hl hw
  simp only [hash_table_print, ha, hr]
  split_ifs <;> exact ⟨_, _, rfl, rfl⟩

/-- C17: each of `hash_table_insert`, `hash_table_delete`, `hash_table_update`,
`hash_table_search` and `hash_table_print`, started on any store with the lock in
its initial state, returns with the lock back in that state, for every argument
and either allocator outcome (so on the success, duplicate, not-found, empty and
allocation-failure paths alike).  The three writing calls use the write semaphore
only: they return with the lock state restored whenever `writelock` is positive,
whatever `lock` and `readers` are, and block when `writelock` is 0.  The two
reading calls use the read lock only: with other readers present they return
with the lock state restored whatever `writelock` is, and they block when the
`lock` semaphore is 0. -/
theorem store_calls_lock_balance
    (qsort : (hashRecord → hashRecord → Int) → List hashRecord → List hashRecord)
    (s : List hashRecord) (n : List Int) (v : Nat) (m : Bool) :
    ((∃ t rc, hash_table_insert ⟨s, rwlock_init⟩ n v m = some (t, rc) ∧ t.lock = rwlock_init) ∧
     (∃ t rc, hash_table_delete ⟨s, rwlock_init⟩ n = some (t, rc) ∧ t.lock = rwlock_init) ∧
     (∃ t rc, hash_table_update ⟨s, rwlock_init⟩ n v = some (t, rc) ∧ t.lock = rwlock_init) ∧
     (∃ t r, hash_table_search ⟨s, rwlock_init⟩ n = some (t, r) ∧ t.lock = rwlock_init) ∧
     (∃ t out, hash_table_print qsort ⟨s, rwlock_init⟩ m = some (t, out) ∧
        t.lock = rwlock_init)) ∧
    (∀ lk : rwlock_t, 0 < lk.writelock →
     (∃ t rc, hash_table_insert ⟨s, lk⟩ n v m = some (t, rc) ∧ t.lock = lk) ∧
     (∃ t rc, hash_table_delete ⟨s, lk⟩ n = some (t, rc) ∧ t.lock = lk) ∧
     (∃ t rc, hash_table_update ⟨s, lk⟩ n v = some (t, rc) ∧ t.lock = lk)) ∧
    (∀ lk : rwlock_t, lk.writelock = 0 →
     hash_table_insert ⟨s, lk⟩ n v m = none ∧ hash_table_delete ⟨s, lk⟩ n = none ∧
     hash_table_update ⟨s, lk⟩ n v = none) ∧
    (∀ lk : rwlock_t, 0 < lk.lock → lk.readers ≠ 0 →
     (∃ t r, hash_table_search ⟨s, lk⟩ n = some (t, r) ∧ t.lock = lk) ∧
     (∃ t out, hash_table_print qsort ⟨s, lk⟩ m = some (t, out) ∧ t.lock = lk)) ∧
    (∀ lk : rwlock_t, lk.lock = 0 →
     hash_table_search ⟨s, lk⟩ n = none ∧ hash_table_print qsort ⟨s, lk⟩ m = none) := by
  refine ⟨⟨?_, ?_, ?_, ?_, ?_⟩, ?_, ?_, ?_, ?_⟩
  · exact hash_table_insert_lock s rwlock_init n v m (by decide)
  · exact hash_table_delete_lock s rwlock_init n (by decide)
  · exact hash_table_update_lock s rwlock_init n v (by decide)
  · exact hash_table_search_lock s rwlock_init n (by decide) (by decide)
  · exact hash_table_print_lock qsort s rwlock_init m (by decide) (by decide)
  · intro lk h
    exact ⟨hash_table_insert_lock s lk n v m h, hash_table_delete_lock s lk n h,
      hash_table_update_lock s lk n v h⟩
  · intro lk h
    simp only [hash_table_insert, hash_table_delete, hash_table_update,
      write_lock_blocked lk h, and_self]
  · intro lk hl hr
    exact ⟨hash_table_search_lock s lk n hl (fun h0 => absurd h0 hr),
      hash_table_print_lock qsort s lk m hl (fun h0 => absurd h0 hr)⟩
  · intro lk h
    simp only [hash_table_search, hash_table_print, read_lock_blocked lk h, and_self]

/-- Witness for C17 (its inner premises): `INSERT` with the counter semaphore taken
and readers recorded still returns, and `SEARCH` next to another reader returns
although the write semaphore is 0. -/
theorem store_calls_lock_balance_witness :
    (∃ t rc, hash_table_insert ⟨[], ⟨1, 0, 3⟩⟩ [65] 100 true = some (t, rc) ∧
      t.lock = ⟨1, 0, 3⟩) ∧
    (∃ t r, hash_table_search ⟨[], ⟨0, 1, 1⟩⟩ [65] = some (t, r) ∧ t.lock = ⟨0, 1, 1⟩) ∧
    hash_table_insert ⟨[], ⟨0, 1, 1⟩⟩ [65] 100 true = none :=
  ⟨((store_calls_lock_balance qsort_model [] [65] 100 true).2.1 ⟨1, 0, 3⟩ (by decide)).1,
   ((store_calls_lock_balance qsort_model [] [65] 100 true).2.2.2.1 ⟨0, 1, 1⟩
      (by decide) (by decide)).1,
   ((store_calls_lock_balance qsort_model [] [65] 100 true).2.2.1 ⟨0, 1, 1⟩ rfl).1⟩


/-! ## Reader-writer exclusion in the interleaving model -/

theorem count_set_pc (l : List Pc) (i : Nat) (p p1 q : Pc) (h : l[i]? = some p) :
    (l.set i p1).count q + (if p = q then 1 else 0)
      = l.count q + (if p1 = q then 1 else 0) := by
  induction l generalizing i with
  | nil => simp at h
  | cons a l ih =>
    cases i with
    | zero =>
      simp only [List.getElem?_cons_zero, Option.some.injEq] at h
      subst h
      simp only [List.set_cons_zero, List.count_cons, beq_iff_eq]
      omega
    | succ j =>
      simp only [List.getElem?_cons_succ] at h
      have := ih j h
      simp only [List.set_cons_succ, List.count_cons, beq_iff_eq]
      omega

theorem lock_inv_init (n : Nat) : LockInv (lock_sys_init n) := by
  simp [LockInv, lock_sys_init, lock_holders, counted_readers, proxy_held, rwlock_init,
    List.count_replicate]

theorem counts_after_set (pcs : List Pc) (i : Nat) (p p1 : Pc) (h : pcs[i]? = some p) :
    ((pcs.set i p1).count Pc.idle + (if p = Pc.idle then 1 else 0)
      = pcs.count Pc.idle + (if p1 = Pc.idle then 1 else 0)) ∧
    ((pcs.set i p1).count Pc.acq_incr + (if p = Pc.acq_incr then 1 else 0)
      = pcs.count Pc.acq_incr + (if p1 = Pc.acq_incr then 1 else 0)) ∧
    ((pcs.set i p1).count Pc.acq_test + (if p = Pc.acq_test then 1 else 0)
      = pcs.count Pc.acq_test + (if p1 = Pc.acq_test then 1 else 0)) ∧
    ((pcs.set i p1).count Pc.acq_post + (if p = Pc.acq_post then 1 else 0)
      = pcs.count Pc.acq_post + (if p1 = Pc.acq_post then 1 else 0)) ∧
    ((pcs.set i p1).count Pc.read_locked + (if p = Pc.read_locked then 1 else 0)
      = pcs.count Pc.read_locked + (if p1 = Pc.read_locked then 1 else 0)) ∧
    ((pcs.set i p1).count Pc.rel_decr + (if p = Pc.rel_decr then 1 else 0)
      = pcs.count Pc.rel_decr + (if p1 = Pc.rel_decr then 1 else 0)) ∧
    ((pcs.set i p1).count Pc.rel_test + (if p = Pc.rel_test then 1 else 0)
      = pcs.count Pc.rel_test + (if p1 = Pc.rel_test then 1 else 0)) ∧
    ((pcs.set i p1).count Pc.rel_post + (if p = Pc.rel_post then 1 else 0)
      = pcs.count Pc.rel_post + (if p1 = Pc.rel_post then 1 else 0)) ∧
    ((pcs.set i p1).count Pc.write_locked + (if p = Pc.write_locked then 1 else 0)
      = pcs.count Pc.write_locked + (if p1 = Pc.write_locked then 1 else 0)) :=
  ⟨count_set_pc pcs i p p1 _ h, count_set_pc pcs i p p1 _ h, count_set_pc pcs i p p1 _ h,
   count_set_pc pcs i p p1 _ h, count_set_pc pcs i p p1 _ h, count_set_pc pcs i p p1 _ h,
   count_set_pc pcs i p p1 _ h, count_set_pc pcs i p p1 _ h, count_set_pc pcs i p p1 _ h⟩

/-- Every step of every thread keeps the invariant. -/
theorem lock_inv_step (st st1 : LockSys) (i : Nat) (as_writer : Bool)
    (hinv : LockInv st) (hs : sys_step st i as_writer = some st1) : LockInv st1 := by
  unfold sys_step at hs
  cases hpc : st.pcs[i]? with
  | none => simp [hpc] at hs
  | some pc =>
    simp only [hpc] at hs
    obtain ⟨⟨w, l, r⟩, pcs⟩ := st
    simp only [LockInv, lock_holders, counted_readers, proxy_held] at hinv ⊢
    simp only at hpc
    cases pc with
    | idle =>
      cases as_writer with
      | true =>
        by_cases hz : w = 0
        · simp [thread_step, sem_wait, hz] at hs
        · simp only [thread_step, sem_wait, hz, if_true, if_false, Option.some.injEq,
            Bool.false_eq_true] at hs
          subst hs
          have H := counts_after_set pcs i _ Pc.write_locked hpc
          simp at H
          simp only
          omega
      | false =>
        by_cases hz : l = 0
        · simp [thread_step, sem_wait, hz] at hs
        · simp only [thread_step, sem_wait, hz, if_true, if_false, Option.some.injEq,
            Bool.false_eq_true] at hs
          subst hs
          have H := counts_after_set pcs i _ Pc.acq_incr hpc
          simp at H
          simp only
          omega
    | acq_incr =>
      simp only [thread_step, sem_post, Option.some.injEq] at hs
      subst hs
      have H := counts_after_set pcs i _ Pc.acq_test hpc
      simp at H
      simp only
      omega
    | acq_test =>
      by_cases hr : r = 1
      · by_cases hz : w = 0
        · simp [thread_step, sem_wait, hz, hr] at hs
        · simp only [thread_step, sem_wait, hz, if_pos hr, if_false, Option.some.injEq] at hs
          subst hs
          have H := counts_after_set pcs i _ Pc.acq_post hpc
          simp at H
          simp only
          omega
      · simp only [thread_step, if_neg hr, Option.some.injEq] at hs
        subst hs
        have H := counts_after_set pcs i _ Pc.acq_post hpc
        simp at H
        simp only
        omega
    | acq_post =>
      simp only [thread_step, sem_post, Option.some.injEq] at hs
      subst hs
      have H := counts_after_set pcs i _ Pc.read_locked hpc
      simp at H
      simp only
      omega
    | read_locked =>
      by_cases hz : l = 0
      · simp [thread_step, sem_wait, hz] at hs
      · simp only [thread_step, sem_wait, hz, if_true, if_false, Option.some.injEq,
          Bool.false_eq_true] at hs
        subst hs
        have H := counts_after_set pcs i _ Pc.rel_decr hpc
        simp at H
        simp only
        omega
    | rel_decr =>
      simp only [thread_step, sem_post, Option.some.injEq] at hs
      subst hs
      have H := counts_after_set pcs i _ Pc.rel_test hpc
      simp at H
      simp only
      omega
    | rel_test =>
      by_cases hr : r = 0
      · simp only [thread_step, sem_post, if_pos hr, Option.some.injEq] at hs
        subst hs
        have H := counts_after_set pcs i _ Pc.rel_post hpc
        simp at H
        simp only
        omega
      · simp only [thread_step, if_neg hr, Option.some.injEq] at hs
        subst hs
        have H := counts_after_set pcs i _ Pc.rel_post hpc
        simp at H
        simp only
        omega
    | rel_post =>
      simp only [thread_step, sem_post, Option.some.injEq] at hs
      subst hs
      have H := counts_after_set pcs i _ Pc.idle hpc
      simp at H
      simp only
      omega
    | write_locked =>
      simp only [thread_step, sem_post, Option.some.injEq] at hs
      subst hs
      have H := counts_after_set pcs i _ Pc.idle hpc
      simp at H
      simp only
      omega

theorem lock_inv_reachable (n : Nat) (st : LockSys) (h : LockReachable n st) : LockInv st := by
  induction h with
  | init => exact lock_inv_init n
  | step _ hs ih => exact lock_inv_step _ _ _ _ ih hs

theorem sys_run_reachable (n : Nat) (sched : List (Nat × Bool)) (st st1 : LockSys)
    (h : LockReachable n st) (hr : sys_run st sched = some st1) : LockReachable n st1 := by
  induction sched generalizing st with
  | nil =>
    simp only [sys_run, Option.some.injEq] at hr
    exact hr ▸ h
  | cons a rest ih =>
    obtain ⟨i, w⟩ := a
    cases hs : sys_step st i w with
    | none => simp [sys_run, hs] at hr
    | some st2 =>
      simp only [sys_run, hs] at hr
      exact ih st2 (LockReachable.step h hs) hr

/-- Two threads, each through the four steps of `rwlock_acquire_readlock`, are both
in their locked regions. -/
theorem two_readers_reachable :
    LockReachable 2 ⟨⟨0, 1, 2⟩, [Pc.read_locked, Pc.read_locked]⟩ :=
  sys_run_reachable 2
    [(0, false), (0, false), (0, false), (0, false),
     (1, false), (1, false), (1, false), (1, false)]
    (lock_sys_init 2) _ LockReachable.init (by decide)

/-- The `readers` field counts a reader from its `readers++` on, so it is already 1
while a first reader still waits on `writelock` behind a writer that is in its
locked region. -/
theorem reader_counted_while_waiting :
    LockReachable 2 ⟨⟨0, 0, 1⟩, [Pc.write_locked, Pc.acq_test]⟩ ∧
    sys_step ⟨⟨0, 0, 1⟩, [Pc.write_locked, Pc.acq_test]⟩ 1 false = none :=
  ⟨sys_run_reachable 2 [(0, true), (1, false), (1, false)]
    (lock_sys_init 2) _ LockReachable.init (by decide), by decide⟩

/-- C12: in every state of the interleaving model reachable from `rwlock_init`
(any number of threads, each step one `sem_wait`, `sem_post` or update of
`readers`), `readers` is non-negative, at most one thread is in the locked region
of a writer, and no thread is in the locked region of a writer while a thread is
in the locked region of a reader; and a state with two readers in their locked
regions at once is reachable. -/
theorem rwlock_exclusion (n : Nat) (st : LockSys) (h : LockReachable n st) :
    0 ≤ st.rw.readers ∧
    st.pcs.count Pc.write_locked ≤ 1 ∧
    ¬ (0 < st.pcs.count Pc.write_locked ∧ 0 < st.pcs.count Pc.read_locked) ∧
    ∃ st2, LockReachable 2 st2 ∧ st2.pcs.count Pc.read_locked = 2 := by
  have hinv := lock_inv_reachable n st h
  obtain ⟨⟨w, l, r⟩, pcs⟩ := st
  simp only [LockInv, lock_holders, counted_readers, proxy_held] at hinv
  refine ⟨?_, ?_, ?_, ⟨_, two_readers_reachable, by decide⟩⟩
  · simp only; omega
  · simp only; omega
  · simp only; omega

/-- Witness for C12: the reachable state with two readers inside. -/
theorem rwlock_exclusion_witness :
    LockReachable 2 ⟨⟨0, 1, 2⟩, [Pc.read_locked, Pc.read_locked]⟩ ∧
    (0 : Int) ≤ 2 ∧
    [Pc.read_locked, Pc.read_locked].count Pc.write_locked ≤ 1 ∧
    ¬ (0 < [Pc.read_locked, Pc.read_locked].count Pc.write_locked ∧
        0 < [Pc.read_locked, Pc.read_locked].count Pc.read_locked) ∧
    ∃ st2, LockReachable 2 st2 ∧ st2.pcs.count Pc.read_locked = 2 :=
  ⟨two_readers_reachable,
   rwlock_exclusion 2 ⟨⟨0, 1, 2⟩, [Pc.read_locked, Pc.read_locked]⟩ two_readers_reachable⟩


/-! ## The turn sequencer and the scheduling of store calls -/

theorem turns_succ (j : Nat) : turns (j + 1) = turns j ++ [((j : Int) + 1)] := by
  simp [turns, List.range'_1_concat, Nat.add_comm]

theorem turns_length (n : Nat) : (turns n).length = n := by
  simp [turns]

theorem mem_turns (n : Nat) (x : Int) : x ∈ turns n ↔ 1 ≤ x ∧ x ≤ n := by
  simp only [turns, List.mem_map, List.mem_range'_1]
  constructor
  · rintro ⟨k, ⟨h1, h2⟩, rfl⟩
    omega
  · rintro ⟨h1, h2⟩
    exact ⟨x.toNat, by omega, by omega⟩

theorem admit_step_eq_some (p p1 : Program) (w : ThreadArgs) (h : admit_step p w = some p1) :
    w ∈ p.waiting ∧ p.current_turn = w.priority ∧
    p1 = { p with current_turn := p.current_turn + 1, waiting := p.waiting.erase w,
                  admitted := p.admitted ++ [w],
                  admissions := p.admissions ++ [w.priority] } := by
  unfold admit_step wait_and_signal_next at h
  by_cases hm : w ∈ p.waiting
  · by_cases ht : p.current_turn = w.priority
    · simp only [hm, ht, if_true, ne_eq, not_true_eq_false, if_false, Option.some.injEq] at h
      exact ⟨hm, ht, by rw [← h, ht]⟩
    · simp [hm, ht] at h
  · simp [hm] at h

theorem admit_step_of_turn (p : Program) (w : ThreadArgs) (hm : w ∈ p.waiting)
    (ht : p.current_turn = w.priority) :
    admit_step p w =
      some { p with current_turn := p.current_turn + 1, waiting := p.waiting.erase w,
                    admitted := p.admitted ++ [w],
                    admissions := p.admissions ++ [w.priority] } := by
  simp [admit_step, wait_and_signal_next, hm, ht]

theorem execute_command_lock
    (qsort : (hashRecord → hashRecord → Int) → List hashRecord → List hashRecord)
    (t : hashTable) (w : ThreadArgs) (m : Bool) (hl : t.lock = rwlock_init) :
    ∃ t1 o, execute_command qsort t w m = some (t1, o) ∧ t1.lock = rwlock_init := by
  obtain ⟨s, lk⟩ := t
  simp only at hl
  subst hl
  unfold execute_command
  split_ifs
  · obtain ⟨t1, rc, h, hl1⟩ := hash_table_insert_lock s rwlock_init w.name w.salary m (by decide)
    exact ⟨t1, _, by rw [h], hl1⟩
  · obtain ⟨t1, rc, h, hl1⟩ := hash_table_delete_lock s rwlock_init w.name (by decide)
    exact ⟨t1, _, by rw [h], hl1⟩
  · obtain ⟨t1, rc, h, hl1⟩ := hash_table_update_lock s rwlock_init w.name w.salary (by decide)
    exact ⟨t1, _, by rw [h], hl1⟩
  · obtain ⟨t1, r, h, hl1⟩ :=
      hash_table_search_lock s rwlock_init w.name (by decide) (by decide)
    exact ⟨t1, _, by rw [h], hl1⟩
  · obtain ⟨t1, out, h, hl1⟩ :=
      hash_table_print_lock qsort s rwlock_init m (by decide) (by decide)
    exact ⟨t1, _, by rw [h], hl1⟩
  · exact ⟨_, _, rfl, rfl⟩

theorem execute_step_eq_some
    (qsort : (hashRecord → hashRecord → Int) → List hashRecord → List hashRecord)
    (p p1 : Program) (w : ThreadArgs) (m : Bool) (h : execute_step qsort p w m = some p1) :
    w ∈ p.admitted ∧ ∃ t o, execute_command qsort p.table w m = some (t, o) ∧
      p1 = { p with table := t, admitted := p.admitted.erase w,
                    executions := p.executions ++ [w.priority] } := by
  unfold execute_step at h
  by_cases hm : w ∈ p.admitted
  · simp only [hm, if_true] at h
    cases hc : execute_command qsort p.table w m with
    | none => simp [hc] at h
    | some r =>
      obtain ⟨t, o⟩ := r
      simp only [hc, Option.some.injEq] at h
      exact ⟨hm, t, o, rfl, h.symm⟩
  · simp [hm] at h

theorem program_inv_reachable
    (qsort : (hashRecord → hashRecord → Int) → List hashRecord → List hashRecord)
    (n : Nat) (workers : List ThreadArgs) (hw : PrioritiesOneTo n workers)
    (p : Program) (hp : ProgramReachable qsort workers p) : ProgramInv n p := by
  induction hp with
  | start =>
    refine ⟨rfl, rfl, ?_, rfl⟩
    simpa [program_start] using hw
  | @admission p p1 w _ hs ih =>
    obtain ⟨hA, hB, hC, hD⟩ := ih
    obtain ⟨hm, ht, rfl⟩ := admit_step_eq_some p p1 w hs
    refine ⟨?_, ?_, ?_, hD⟩
    · simp only [List.length_append, List.length_singleton, turns_succ]
      rw [← hA, ← ht, hB]
    · simp only [List.length_append, List.length_singleton]
      rw [hB]; push_cast; ring
    · simp only
      have h1 : (p.waiting.map ThreadArgs.priority).Perm
          (w.priority :: (p.waiting.erase w).map ThreadArgs.priority) := by
        simpa using (List.perm_cons_erase hm).map ThreadArgs.priority
      have h2 : ((p.waiting.erase w).map ThreadArgs.priority ++
          (p.admissions ++ [w.priority])).Perm
          (w.priority :: ((p.waiting.erase w).map ThreadArgs.priority ++ p.admissions)) := by
        rw [← List.append_assoc]
        exact List.perm_append_singleton _ _
      exact h2.trans ((List.Perm.append_right p.admissions h1).symm.trans hC)
  | @execution p p1 w m _ hs ih =>
    obtain ⟨hA, hB, hC, hD⟩ := ih
    obtain ⟨hm, t, o, hc, rfl⟩ := execute_step_eq_some qsort p p1 w m hs
    obtain ⟨t1, o1, hc1, hl1⟩ := execute_command_lock qsort p.table w m hD
    rw [hc] at hc1
    simp only [Option.some.injEq, Prod.mk.injEq] at hc1
    exact ⟨hA, hB, hC, hc1.1 ▸ hl1⟩

theorem next_worker_waiting (n : Nat) (p : Program) (hinv : ProgramInv n p)
    (hlt : p.admissions.length < n) :
    ∃ w ∈ p.waiting, w.priority = p.current_turn := by
  obtain ⟨hA, hB, hC, _⟩ := hinv
  have hmem : p.current_turn ∈ turns n := by
    rw [mem_turns, hB]; omega
  have h1 := (hC.mem_iff (a := p.current_turn)).2 hmem
  rcases List.mem_append.1 h1 with h | h
  · obtain ⟨w, hw, hwp⟩ := List.mem_map.1 h
    exact ⟨w, hw, hwp⟩
  · rw [hA, mem_turns, hB] at h
    omega


/-- C13: with workers carrying the priorities 1..`n`, in every reachable state of
the program the admissions so far are exactly 1, 2, ..., k in this order (k the
number of admissions, at most `n`) and `current_turn = k + 1`; a worker passes
`wait_and_signal_next` only when `current_turn` equals its priority, and that
step raises `current_turn` by one; a store call leaves `current_turn` alone (so
it never decreases); and while k < `n` the worker of priority k + 1 can be
admitted. -/
theorem turn_admission_order
    (qsort : (hashRecord → hashRecord → Int) → List hashRecord → List hashRecord)
    (n : Nat) (workers : List ThreadArgs) (hw : PrioritiesOneTo n workers)
    (p : Program) (hp : ProgramReachable qsort workers p) :
    p.admissions = turns p.admissions.length ∧
    p.admissions.length ≤ n ∧
    p.current_turn = (p.admissions.length : Int) + 1 ∧
    (∀ w p1, admit_step p w = some p1 →
      w.priority = p.current_turn ∧ p1.current_turn = p.current_turn + 1 ∧
      p1.admissions = p.admissions ++ [w.priority]) ∧
    (∀ w m p1, execute_step qsort p w m = some p1 →
      p1.current_turn = p.current_turn ∧ p1.admissions = p.admissions) ∧
    (p.admissions.length < n →
      ∃ w p1, w.priority = (p.admissions.length : Int) + 1 ∧ admit_step p w = some p1) := by
  have hinv := program_inv_reachable qsort n workers hw p hp
  obtain ⟨hA, hB, hC, hD⟩ := hinv
  refine ⟨hA, ?_, hB, ?_, ?_, ?_⟩
  · have := hC.length_eq
    simp only [List.length_append, List.length_map, turns_length] at this
    omega
  · intro w p1 hs
    obtain ⟨_, ht, rfl⟩ := admit_step_eq_some p p1 w hs
    exact ⟨ht.symm, rfl, rfl⟩
  · intro w m p1 hs
    obtain ⟨_, t, o, _, rfl⟩ := execute_step_eq_some qsort p p1 w m hs
    exact ⟨rfl, rfl⟩
  · intro hlt
    obtain ⟨w, hm, hwp⟩ := next_worker_waiting n p ⟨hA, hB, hC, hD⟩ hlt
    exact ⟨w, _, by rw [hwp, hB], admit_step_of_turn p w hm hwp.symm⟩

/-- Witness for C13: two workers created in the order 2, 1; after both admissions
the log is 1, 2 and `current_turn` is 3. -/
theorem turn_admission_order_witness :
    PrioritiesOneTo 2 [⟨CMD_INSERT, [66], 200, 2⟩, ⟨CMD_INSERT, [65], 100, 1⟩] ∧
    ProgramReachable qsort_model [⟨CMD_INSERT, [66], 200, 2⟩, ⟨CMD_INSERT, [65], 100, 1⟩]
      ⟨3, hash_table_init, [], [⟨CMD_INSERT, [65], 100, 1⟩, ⟨CMD_INSERT, [66], 200, 2⟩],
        [1, 2], []⟩ ∧
    admit_step (program_start [⟨CMD_INSERT, [66], 200, 2⟩, ⟨CMD_INSERT, [65], 100, 1⟩])
      ⟨CMD_INSERT, [66], 200, 2⟩ = none ∧
    ([1, 2] : List Int) = turns 2 ∧ (3 : Int) = (2 : Nat) + 1 :=
  have hw : PrioritiesOneTo 2 [⟨CMD_INSERT, [66], 200, 2⟩, ⟨CMD_INSERT, [65], 100, 1⟩] :=
    List.Perm.swap 1 2 []
  have h1 : ProgramReachable qsort_model
      [⟨CMD_INSERT, [66], 200, 2⟩, ⟨CMD_INSERT, [65], 100, 1⟩]
      ⟨2, hash_table_init, [⟨CMD_INSERT, [66], 200, 2⟩], [⟨CMD_INSERT, [65], 100, 1⟩],
        [1], []⟩ :=
    @ProgramReachable.admission _ _ _ _ ⟨CMD_INSERT, [65], 100, 1⟩ ProgramReachable.start
      (by decide)
  have h2 : ProgramReachable qsort_model
      [⟨CMD_INSERT, [66], 200, 2⟩, ⟨CMD_INSERT, [65], 100, 1⟩]
      ⟨3, hash_table_init, [], [⟨CMD_INSERT, [65], 100, 1⟩, ⟨CMD_INSERT, [66], 200, 2⟩],
        [1, 2], []⟩ :=
    @ProgramReachable.admission _ _ _ _ ⟨CMD_INSERT, [66], 200, 2⟩ h1 (by decide)
  have h := turn_admission_order qsort_model 2 _ hw _ h2
  ⟨hw, h2, by decide, h.1, h.2.2.1⟩


theorem admissions_without_execution
    (qsort : (hashRecord → hashRecord → Int) → List hashRecord → List hashRecord)
    (n : Nat) (workers : List ThreadArgs) (hw : PrioritiesOneTo n workers)
    (j : Nat) (hj : j ≤ n) :
    ∃ p, ProgramReachable qsort workers p ∧ p.admissions = turns j ∧ p.executions = [] ∧
      p.admitted.map ThreadArgs.priority = turns j := by
  induction j with
  | zero => exact ⟨program_start workers, ProgramReachable.start, rfl, rfl, rfl⟩
  | succ j ih =>
    obtain ⟨p, hp, hadm, hex, hmap⟩ := ih (by omega)
    have hinv := program_inv_reachable qsort n workers hw p hp
    have hlen : p.admissions.length = j := by rw [hadm, turns_length]
    obtain ⟨w, hm, hwp⟩ := next_worker_waiting n p hinv (by omega)
    have hturn : p.current_turn = (j : Int) + 1 := by rw [hinv.2.1, hlen]
    refine ⟨_, ProgramReachable.admission hp (admit_step_of_turn p w hm hwp.symm), ?_, hex, ?_⟩
    · simp only [turns_succ, hadm, hwp, hturn]
    · simp only [List.map_append, List.map_cons, List.map_nil, turns_succ, hmap, hwp, hturn]

/-- C16: the sequencer orders admissions, not store calls.  With workers carrying
the priorities 1..`n` and any k with 1 ≤ k < `n` (so `n` ≥ 2), a state is
reachable in which the workers 1..k+1 have been admitted in this order, the
worker of priority k + 1 has performed its store call, and the worker of
priority k, admitted before it, has not yet performed its own. -/
theorem store_call_may_overtake
    (qsort : (hashRecord → hashRecord → Int) → List hashRecord → List hashRecord)
    (n : Nat) (workers : List ThreadArgs) (hw : PrioritiesOneTo n workers)
    (k : Nat) (hk1 : 1 ≤ k) (hk : k < n) (malloc_ok : Bool) :
    2 ≤ n ∧
    ∃ p, ProgramReachable qsort workers p ∧ p.admissions = turns (k + 1) ∧
      p.executions = [(k : Int) + 1] ∧ ∃ w ∈ p.admitted, w.priority = (k : Int) := by
  refine ⟨by omega, ?_⟩
  obtain ⟨p, hp, hadm, hex, hmap⟩ :=
    admissions_without_execution qsort n workers hw (k + 1) (by omega)
  have hinv := program_inv_reachable qsort n workers hw p hp
  have hk_mem : (k : Int) ∈ p.admitted.map ThreadArgs.priority := by
    rw [hmap, mem_turns]; omega
  have hk1_mem : (k : Int) + 1 ∈ p.admitted.map ThreadArgs.priority := by
    rw [hmap, mem_turns]; omega
  obtain ⟨wk, hwk, hwkp⟩ := List.mem_map.1 hk_mem
  obtain ⟨wk1, hwk1, hwk1p⟩ := List.mem_map.1 hk1_mem
  obtain ⟨t1, o, hc, _⟩ := execute_command_lock qsort p.table wk1 malloc_ok hinv.2.2.2
  have hstep : execute_step qsort p wk1 malloc_ok =
      some { p with table := t1, admitted := p.admitted.erase wk1,
                    executions := p.executions ++ [wk1.priority] } := by
    simp [execute_step, hwk1, hc]
  have hne : wk ≠ wk1 := by
    intro h
    rw [h, hwk1p] at hwkp
    omega
  refine ⟨_, ProgramReachable.execution hp hstep, hadm, ?_, wk, ?_, hwkp⟩
  · simp only [hex, hwk1p, List.nil_append]
  · exact (List.mem_erase_of_ne hne).2 hwk

/-- Witness for C16: `INSERT A 100` with priority 1 and `INSERT A 999` with
priority 2; worker 2 stores first, worker 1 then fails as a duplicate, and the
table ends with salary 999. -/
theorem store_call_may_overtake_witness :
    PrioritiesOneTo 2 [⟨CMD_INSERT, [65], 100, 1⟩, ⟨CMD_INSERT, [65], 999, 2⟩] ∧
    ProgramReachable qsort_model [⟨CMD_INSERT, [65], 100, 1⟩, ⟨CMD_INSERT, [65], 999, 2⟩]
      ⟨3, ⟨[⟨jenkins_hash [65], [65], 999⟩], rwlock_init⟩, [], [], [1, 2], [2, 1]⟩ ∧
    (2 ≤ 2 ∧
      ∃ p, ProgramReachable qsort_model
          [⟨CMD_INSERT, [65], 100, 1⟩, ⟨CMD_INSERT, [65], 999, 2⟩] p ∧
        p.admissions = turns (1 + 1) ∧ p.executions = [((1 : Nat) : Int) + 1] ∧
        ∃ w ∈ p.admitted, w.priority = ((1 : Nat) : Int)) :=
  have hw : PrioritiesOneTo 2 [⟨CMD_INSERT, [65], 100, 1⟩, ⟨CMD_INSERT, [65], 999, 2⟩] :=
    List.Perm.refl _
  have h1 : ProgramReachable qsort_model
      [⟨CMD_INSERT, [65], 100, 1⟩, ⟨CMD_INSERT, [65], 999, 2⟩]
      ⟨2, hash_table_init, [⟨CMD_INSERT, [65], 999, 2⟩], [⟨CMD_INSERT, [65], 100, 1⟩],
        [1], []⟩ :=
    @ProgramReachable.admission _ _ _ _ ⟨CMD_INSERT, [65], 100, 1⟩ ProgramReachable.start
      (by decide)
  have h2 : ProgramReachable qsort_model
      [⟨CMD_INSERT, [65], 100, 1⟩, ⟨CMD_INSERT, [65], 999, 2⟩]
      ⟨3, hash_table_init, [], [⟨CMD_INSERT, [65], 100, 1⟩, ⟨CMD_INSERT, [65], 999, 2⟩],
        [1, 2], []⟩ :=
    @ProgramReachable.admission _ _ _ _ ⟨CMD_INSERT, [65], 999, 2⟩ h1 (by decide)
  have h3 : ProgramReachable qsort_model
      [⟨CMD_INSERT, [65], 100, 1⟩, ⟨CMD_INSERT, [65], 999, 2⟩]
      ⟨3, ⟨[⟨jenkins_hash [65], [65], 999⟩], rwlock_init⟩, [],
        [⟨CMD_INSERT, [65], 100, 1⟩], [1, 2], [2]⟩ :=
    @ProgramReachable.execution _ _ _ _ ⟨CMD_INSERT, [65], 999, 2⟩ true h2 (by decide)
  have h4 : ProgramReachable qsort_model
      [⟨CMD_INSERT, [65], 100, 1⟩, ⟨CMD_INSERT, [65], 999, 2⟩]
      ⟨3, ⟨[⟨jenkins_hash [65], [65], 999⟩], rwlock_init⟩, [], [], [1, 2], [2, 1]⟩ :=
    @ProgramReachable.execution _ _ _ _ ⟨CMD_INSERT, [65], 100, 1⟩ true h3 (by decide)
  ⟨hw, h4, store_call_may_overtake qsort_model 2 _ hw 1 (by decide) (by decide) true⟩


/-! ## End-to-end scenario through `thread_routine` -/

/-- C14, as stated, fails when the allocation in the first `INSERT` fails: with
`A = "A"`, `B = "B"` the four commands give the statuses -1, 0, -1 (the `DELETE`
finds nothing), although the store still ends as the single record of `B`. -/
theorem end_to_end_malloc_failure :
    jenkins_hash [65] ≠ jenkins_hash [66] ∧
    thread_routine qsort_model 1 hash_table_init ⟨CMD_INSERT, [65], 100, 1⟩ false
      = some (2, hash_table_init, Outcome.status (-1)) ∧
    thread_routine qsort_model 2 hash_table_init ⟨CMD_INSERT, [66], 200, 2⟩ true
      = some (3, ⟨[⟨jenkins_hash [66], [66], 200⟩], rwlock_init⟩, Outcome.status 0) ∧
    thread_routine qsort_model 3 ⟨[⟨jenkins_hash [66], [66], 200⟩], rwlock_init⟩
        ⟨CMD_DELETE, [65], 0, 3⟩ true
      = some (4, ⟨[⟨jenkins_hash [66], [66], 200⟩], rwlock_init⟩, Outcome.status (-1)) ∧
    thread_routine qsort_model 4 ⟨[⟨jenkins_hash [66], [66], 200⟩], rwlock_init⟩
        ⟨CMD_PRINT, [], 0, 4⟩ true
      = some (5, ⟨[⟨jenkins_hash [66], [66], 200⟩], rwlock_init⟩,
          Outcome.printed [⟨jenkins_hash [66], [66], 200⟩]) := by
  decide

/-- C14 (amended): for names `A`, `B` with different hashes (`B` of at most 49
chars, as `ThreadArgs.name` holds it) and every allocation succeeding, the
commands `INSERT A 100`, `INSERT B 200`, `DELETE A`, `PRINT` run through
`thread_routine` in the order of their priorities 1..4 from the empty store
return 0, 0, 0; `PRINT` writes the single record (hash of `B`, `B`, 200); and the
store ends as exactly that record. -/
theorem end_to_end_insert_insert_delete_print
    (qsort : (hashRecord → hashRecord → Int) → List hashRecord → List hashRecord)
    (hq : QsortContract qsort compare_records) (A B : List Int)
    (hne : jenkins_hash A ≠ jenkins_hash B) (hB : B.length ≤ 49)
    (d_salary p_salary : Nat) (p_name : List Int) (d_malloc : Bool) :
    ∃ t1 t2 t3,
      thread_routine qsort 1 hash_table_init ⟨CMD_INSERT, A, 100, 1⟩ true
        = some (2, t1, Outcome.status 0) ∧
      thread_routine qsort 2 t1 ⟨CMD_INSERT, B, 200, 2⟩ true
        = some (3, t2, Outcome.status 0) ∧
      thread_routine qsort 3 t2 ⟨CMD_DELETE, A, d_salary, 3⟩ d_malloc
        = some (4, t3, Outcome.status 0) ∧
      thread_routine qsort 4 t3 ⟨CMD_PRINT, p_name, p_salary, 4⟩ true
        = some (5, ⟨[⟨jenkins_hash B, B, 200⟩], rwlock_init⟩,
            Outcome.printed [⟨jenkins_hash B, B, 200⟩]) ∧
      t3 = ⟨[⟨jenkins_hash B, B, 200⟩], rwlock_init⟩ := by
  have hBt : B.take 49 = B := List.take_of_length_le hB
  have hsort : qsort compare_records [⟨jenkins_hash B, B, 200⟩] = [⟨jenkins_hash B, B, 200⟩] :=
    List.perm_singleton.1 (hq [⟨jenkins_hash B, B, 200⟩]).1
  have hd : CMD_DELETE ≠ CMD_INSERT := by decide
  have hp1 : CMD_PRINT ≠ CMD_INSERT := by decide
  have hp2 : CMD_PRINT ≠ CMD_DELETE := by decide
  have hp3 : CMD_PRINT ≠ CMD_UPDATE := by decide
  have hp4 : CMD_PRINT ≠ CMD_SEARCH := by decide
  refine ⟨⟨[⟨jenkins_hash A, A.take 49, 100⟩], rwlock_init⟩,
    ⟨[⟨jenkins_hash B, B, 200⟩, ⟨jenkins_hash A, A.take 49, 100⟩], rwlock_init⟩,
    ⟨[⟨jenkins_hash B, B, 200⟩], rwlock_init⟩, ?_, ?_, ?_, ?_, rfl⟩
  · simp [thread_routine, wait_and_signal_next, execute_command, hash_table_init,
      hash_table_insert_init_lock, find_record]
  · simp [thread_routine, wait_and_signal_next, execute_command,
      hash_table_insert_init_lock, find_record, hne, hBt]
  · simp [thread_routine, wait_and_signal_next, execute_command, hd,
      hash_table_delete_init_lock, delete_loop, hne.symm]
  · simp [thread_routine, wait_and_signal_next, execute_command, hp1, hp2, hp3, hp4,
      hash_table_print_init_lock, hsort]

/-- Witness for C14 (amended): `A = "A"`, `B = "B"` with the executable sort. -/
theorem end_to_end_insert_insert_delete_print_witness :
    QsortContract qsort_model compare_records ∧
    jenkins_hash [65] ≠ jenkins_hash [66] ∧ ([66] : List Int).length ≤ 49 ∧
    ∃ t1 t2 t3,
      thread_routine qsort_model 1 hash_table_init ⟨CMD_INSERT, [65], 100, 1⟩ true
        = some (2, t1, Outcome.status 0) ∧
      thread_routine qsort_model 2 t1 ⟨CMD_INSERT, [66], 200, 2⟩ true
        = some (3, t2, Outcome.status 0) ∧
      thread_routine qsort_model 3 t2 ⟨CMD_DELETE, [65], 0, 3⟩ true
        = some (4, t3, Outcome.status 0) ∧
      thread_routine qsort_model 4 t3 ⟨CMD_PRINT, [], 0, 4⟩ true
        = some (5, ⟨[⟨jenkins_hash [66], [66], 200⟩], rwlock_init⟩,
            Outcome.printed [⟨jenkins_hash [66], [66], 200⟩]) ∧
      t3 = ⟨[⟨jenkins_hash [66], [66], 200⟩], rwlock_init⟩ :=
  ⟨qsort_model_contract, by decide, by decide,
   end_to_end_insert_insert_delete_print qsort_model qsort_model_contract [65] [66]
     (by decide) (by decide) 0 0 [] true⟩


/-! ## Round trip and removal -/

/-- C18, as stated, fails when the allocation fails: on the empty store, where no
record has the hash of `"A"`, `hash_table_insert` returns -1, the following
search finds nothing and the following delete returns -1. -/
theorem insert_delete_round_trip_malloc_failure :
    (∀ r ∈ ([] : List hashRecord), r.hash ≠ jenkins_hash [65]) ∧
    hash_table_insert ⟨[], rwlock_init⟩ [65] 100 false = some (⟨[], rwlock_init⟩, -1) ∧
    hash_table_search ⟨[], rwlock_init⟩ [65] = some (⟨[], rwlock_init⟩, none) ∧
    hash_table_delete ⟨[], rwlock_init⟩ [65] = some (⟨[], rwlock_init⟩, -1) := by
  decide

/-- C18 (amended): when no record of `s` has the hash of the name and the
allocation succeeds, `hash_table_insert` returns 0, a search for the name then
returns a record with that hash and the salary given, and `hash_table_delete`
then returns 0 and leaves the table equal to the one before the insert. -/
theorem insert_delete_round_trip (s : List hashRecord) (n : List Int) (v : Nat)
    (h : ∀ r ∈ s, r.hash ≠ jenkins_hash n) :
    ∃ t1 r, hash_table_insert ⟨s, rwlock_init⟩ n v true = some (t1, 0) ∧
      hash_table_search t1 n = some (t1, some r) ∧
      r.hash = jenkins_hash n ∧ r.salary = v ∧
      hash_table_delete t1 n = some (⟨s, rwlock_init⟩, 0) := by
  refine ⟨⟨⟨jenkins_hash n, n.take 49, v⟩ :: s, rwlock_init⟩, ⟨jenkins_hash n, n.take 49, v⟩,
    ?_, ?_, rfl, rfl, ?_⟩
  · rw [hash_table_insert_init_lock, (find_record_eq_none_iff s _).2 h]
    rfl
  · simp [hash_table_search_init_lock, find_record]
  · simp [hash_table_delete_init_lock, delete_loop]

/-- Witness for C18 (amended): `INSERT B 200` then `DELETE B` on the store
holding `"A"`. -/
theorem insert_delete_round_trip_witness :
    (∀ r ∈ [(⟨jenkins_hash [65], [65], 100⟩ : hashRecord)], r.hash ≠ jenkins_hash [66]) ∧
    ∃ t1 r, hash_table_insert ⟨[⟨jenkins_hash [65], [65], 100⟩], rwlock_init⟩ [66] 200 true
        = some (t1, 0) ∧
      hash_table_search t1 [66] = some (t1, some r) ∧
      r.hash = jenkins_hash [66] ∧ r.salary = 200 ∧
      hash_table_delete t1 [66] = some (⟨[⟨jenkins_hash [65], [65], 100⟩], rwlock_init⟩, 0) :=
  ⟨by decide, insert_delete_round_trip [⟨jenkins_hash [65], [65], 100⟩] [66] 200 (by decide)⟩

theorem delete_loop_removes_hash (s : List hashRecord) (h : Nat) (rest : List hashRecord)
    (hu : s.Pairwise (fun a b => a.hash ≠ b.hash)) (hd : delete_loop s h = some rest) :
    ∀ r ∈ rest, r.hash ≠ h := by
  induction s generalizing rest with
  | nil => simp [delete_loop] at hd
  | cons a s ih =>
    obtain ⟨ha_s, hs⟩ := List.pairwise_cons.1 hu
    by_cases ha : a.hash = h
    · simp only [delete_loop, ha, if_true, Option.some.injEq] at hd
      subst hd
      intro r hr hrh
      exact ha_s r hr (ha.trans hrh.symm)
    · cases hd1 : delete_loop s h with
      | none => simp [delete_loop, ha, hd1] at hd
      | some r1 =>
        simp only [delete_loop, ha, hd1, if_false, Option.some.injEq] at hd
        subst hd
        intro r hr
        rcases List.mem_cons.1 hr with rfl | hr
        · exact ha
        · exact ih r1 hs hd1 r hr

/-- C19, as stated, fails when the allocation fails: from the reachable store
holding `"A"`, `DELETE A` returns 0, and the following `INSERT A 7` returns -1
once `malloc` fails. -/
theorem delete_then_insert_malloc_failure :
    Reachable ⟨[⟨jenkins_hash [65], [65], 100⟩], rwlock_init⟩ ∧
    hash_table_delete ⟨[⟨jenkins_hash [65], [65], 100⟩], rwlock_init⟩ [65]
      = some (⟨[], rwlock_init⟩, 0) ∧
    hash_table_insert ⟨[], rwlock_init⟩ [65] 7 false = some (⟨[], rwlock_init⟩, -1) :=
  ⟨@Reachable.insert hash_table_init _ [65] 100 true 0 Reachable.init (by decide),
   by decide, by decide⟩

/-- C19 (amended): on a reachable table, after a `hash_table_delete` of a name that
returned 0, a search for the name returns `NULL`, a second delete returns -1
(table unchanged), and, the allocation succeeding, `hash_table_insert` of the name
returns 0 for every salary and puts its record at the head. -/
theorem delete_removes_identity (t t1 : hashTable) (n : List Int) (hr : Reachable t)
    (hd : hash_table_delete t n = some (t1, 0)) :
    hash_table_search t1 n = some (t1, none) ∧
    hash_table_delete t1 n = some (t1, -1) ∧
    ∀ v, hash_table_insert t1 n v true
      = some (⟨⟨jenkins_hash n, n.take 49, v⟩ :: t1.head, rwlock_init⟩, 0) := by
  obtain ⟨hl, hu⟩ := reachable_invariant t hr
  obtain ⟨s, lk⟩ := t
  simp only at hl hu
  subst hl
  rw [hash_table_delete_init_lock] at hd
  cases hloop : delete_loop s (jenkins_hash n) with
  | none => simp [hloop] at hd
  | some rest =>
    simp only [hloop, Option.some.injEq, Prod.mk.injEq, and_true] at hd
    subst hd
    have hfresh := delete_loop_removes_hash s _ rest hu hloop
    refine ⟨?_, ?_, fun v => ?_⟩
    · rw [hash_table_search_init_lock, (find_record_eq_none_iff rest _).2 hfresh]
    · rw [hash_table_delete_init_lock, (delete_loop_eq_none_iff rest _).2 hfresh]
    · rw [hash_table_insert_init_lock, (find_record_eq_none_iff rest _).2 hfresh]
      rfl

/-- Witness for C19 (amended): `DELETE A` on the reachable store holding `"A"`. -/
theorem delete_removes_identity_witness :
    Reachable ⟨[⟨jenkins_hash [65], [65], 100⟩], rwlock_init⟩ ∧
    hash_table_delete ⟨[⟨jenkins_hash [65], [65], 100⟩], rwlock_init⟩ [65]
      = some (⟨[], rwlock_init⟩, 0) ∧
    (hash_table_search ⟨[], rwlock_init⟩ [65] = some (⟨[], rwlock_init⟩, none) ∧
     hash_table_delete ⟨[], rwlock_init⟩ [65] = some (⟨[], rwlock_init⟩, -1) ∧
     ∀ v, hash_table_insert ⟨[], rwlock_init⟩ [65] v true
       = some (⟨⟨jenkins_hash [65], ([65] : List Int).take 49, v⟩ ::
           (⟨[], rwlock_init⟩ : hashTable).head, rwlock_init⟩, 0)) :=
  have hr : Reachable ⟨[⟨jenkins_hash [65], [65], 100⟩], rwlock_init⟩ :=
    @Reachable.insert hash_table_init _ [65] 100 true 0 Reachable.init (by decide)
  ⟨hr, by decide, delete_removes_identity _ _ [65] hr (by decide)⟩


/-! ## Stored hash and stored name -/

theorem update_loop_fields (s : List hashRecord) (h v : Nat) (rest : List hashRecord)
    (hu : update_loop s h v = some rest) :
    ∀ r ∈ rest, ∃ r0 ∈ s, r.hash = r0.hash ∧ r.name = r0.name := by
  induction s generalizing rest with
  | nil => simp [update_loop] at hu
  | cons a s ih =>
    by_cases ha : a.hash = h
    · simp only [update_loop, ha, if_true, Option.some.injEq] at hu
      subst hu
      intro r hr
      rcases List.mem_cons.1 hr with rfl | hr
      · exact ⟨a, by simp, ha.symm, rfl⟩
      · exact ⟨r, by simp [hr], rfl, rfl⟩
    · cases hu1 : update_loop s h v with
      | none => simp [update_loop, ha, hu1] at hu
      | some r1 =>
        simp only [update_loop, ha, hu1, if_false, Option.some.injEq] at hu
        subst hu
        intro r hr
        rcases List.mem_cons.1 hr with rfl | hr
        · exact ⟨r, by simp, rfl, rfl⟩
        · obtain ⟨r0, hr0, e1, e2⟩ := ih r1 hu1 r hr
          exact ⟨r0, by simp [hr0], e1, e2⟩

theorem reachable_short_names_invariant (t : hashTable) (hr : ReachableShortNames t) :
    t.lock = rwlock_init ∧
    ∀ r ∈ t.head, r.hash = jenkins_hash r.name ∧ r.name.length ≤ 49 := by
  induction hr with
  | init => exact ⟨rfl, by simp [hash_table_init]⟩
  | @insert t t1 name salary malloc_ok rc _ hlen hcall ih =>
    obtain ⟨s, lk⟩ := t
    obtain ⟨hl, hrec⟩ := ih
    simp only at hl hrec
    subst hl
    rw [hash_table_insert_init_lock] at hcall
    cases hf : find_record s (jenkins_hash name) with
    | some r =>
      simp only [hf, Option.some.injEq, Prod.mk.injEq] at hcall
      rw [← hcall.1]
      exact ⟨rfl, hrec⟩
    | none =>
      cases malloc_ok with
      | false =>
        simp only [hf, Bool.false_eq_true, if_false, Option.some.injEq, Prod.mk.injEq] at hcall
        rw [← hcall.1]
        exact ⟨rfl, hrec⟩
      | true =>
        simp only [hf, if_true, Option.some.injEq, Prod.mk.injEq] at hcall
        rw [← hcall.1]
        refine ⟨rfl, ?_⟩
        intro r hr
        rcases List.mem_cons.1 hr with rfl | hr
        · show jenkins_hash name = jenkins_hash (name.take 49) ∧ (name.take 49).length ≤ 49
          rw [List.take_of_length_le hlen]
          exact ⟨rfl, hlen⟩
        · exact hrec r hr
  | @delete t t1 name rc _ hcall ih =>
    obtain ⟨s, lk⟩ := t
    obtain ⟨hl, hrec⟩ := ih
    simp only at hl hrec
    subst hl
    rw [hash_table_delete_init_lock] at hcall
    cases hd : delete_loop s (jenkins_hash name) with
    | some rest =>
      simp only [hd, Option.some.injEq, Prod.mk.injEq] at hcall
      rw [← hcall.1]
      exact ⟨rfl, fun r hr => hrec r ((delete_loop_sublist s _ rest hd).subset hr)⟩
    | none =>
      simp only [hd, Option.some.injEq, Prod.mk.injEq] at hcall
      rw [← hcall.1]
      exact ⟨rfl, hrec⟩
  | @update t t1 name salary rc _ hcall ih =>
    obtain ⟨s, lk⟩ := t
    obtain ⟨hl, hrec⟩ := ih
    simp only at hl hrec
    subst hl
    rw [hash_table_update_init_lock] at hcall
    cases hd : update_loop s (jenkins_hash name) salary with
    | some rest =>
      simp only [hd, Option.some.injEq, Prod.mk.injEq] at hcall
      rw [← hcall.1]
      refine ⟨rfl, ?_⟩
      intro r hr
      obtain ⟨r0, hr0, e1, e2⟩ := update_loop_fields s _ _ rest hd r hr
      rw [e1, e2]
      exact hrec r0 hr0
    | none =>
      simp only [hd, Option.some.injEq, Prod.mk.injEq] at hcall
      rw [← hcall.1]
      exact ⟨rfl, hrec⟩

set_option maxRecDepth 8000 in
theorem long_name_hash_differs :
    jenkins_hash (List.replicate 50 65) ≠ jenkins_hash ((List.replicate 50 65).take 49) := by
  decide

/-- C20: when every name handed to `hash_table_insert` has at most 49 chars, every
record `r` of every reachable table has `r.hash = jenkins_hash r.name` and a name
of at most 49 chars.  The insert hashes the name it is given and stores the
first 49 chars of it: for a fresh name of any length the stored record is
(hash of the whole name, first 49 chars, salary); for the name of fifty `A`s the
hash of the whole name differs from the hash of the stored 49 chars. -/
theorem stored_hash_matches_name (t : hashTable) (hr : ReachableShortNames t) :
    (∀ r ∈ t.head, r.hash = jenkins_hash r.name ∧ r.name.length ≤ 49) ∧
    (∀ (s : List hashRecord) (n : List Int) (v : Nat), (∀ r ∈ s, r.hash ≠ jenkins_hash n) →
      hash_table_insert ⟨s, rwlock_init⟩ n v true
        = some (⟨⟨jenkins_hash n, n.take 49, v⟩ :: s, rwlock_init⟩, 0)) ∧
    jenkins_hash (List.replicate 50 65) ≠ jenkins_hash ((List.replicate 50 65).take 49) := by
  refine ⟨(reachable_short_names_invariant t hr).2, ?_, long_name_hash_differs⟩
  intro s n v hfresh
  rw [hash_table_insert_init_lock, (find_record_eq_none_iff s _).2 hfresh]
  rfl

/-- Witness for C20: the table after `INSERT A 100`, `INSERT B 200`, `UPDATE A 5`. -/
theorem stored_hash_matches_name_witness :
    ReachableShortNames
      ⟨[⟨jenkins_hash [66], [66], 200⟩, ⟨jenkins_hash [65], [65], 5⟩], rwlock_init⟩ ∧
    ∀ r ∈ [(⟨jenkins_hash [66], [66], 200⟩ : hashRecord), ⟨jenkins_hash [65], [65], 5⟩],
      r.hash = jenkins_hash r.name ∧ r.name.length ≤ 49 :=
  have h1 : ReachableShortNames ⟨[⟨jenkins_hash [65], [65], 100⟩], rwlock_init⟩ :=
    @ReachableShortNames.insert hash_table_init _ [65] 100 true 0
      ReachableShortNames.init (by decide) (by decide)
  have h2 : ReachableShortNames
      ⟨[⟨jenkins_hash [66], [66], 200⟩, ⟨jenkins_hash [65], [65], 100⟩], rwlock_init⟩ :=
    @ReachableShortNames.insert _ _ [66] 200 true 0 h1 (by decide) (by decide)
  have h3 : ReachableShortNames
      ⟨[⟨jenkins_hash [66], [66], 200⟩, ⟨jenkins_hash [65], [65], 5⟩], rwlock_init⟩ :=
    @ReachableShortNames.update _ _ [65] 5 0 h2 (by decide)
  ⟨h3, (stored_hash_matches_name _ h3).1⟩


/-! ## The thread steps against the lock calls -/

/-- Run without interference, the steps of a thread add up to the lock calls of
`rwlock.c`: four steps for each read-lock call, one for each write-lock call. -/
theorem thread_steps_are_lock_calls (rw : rwlock_t) :
    thread_steps 4 rw Pc.idle false
      = (rwlock_acquire_readlock rw).map (fun rw1 => (rw1, Pc.read_locked)) ∧
    thread_steps 4 rw Pc.read_locked false
      = (rwlock_release_readlock rw).map (fun rw1 => (rw1, Pc.idle)) ∧
    thread_steps 1 rw Pc.idle true
      = (rwlock_acquire_writelock rw).map (fun rw1 => (rw1, Pc.write_locked)) ∧
    thread_steps 1 rw Pc.write_locked true = some (rwlock_release_writelock rw, Pc.idle) := by
  obtain ⟨w, l, r⟩ := rw
  refine ⟨?_, ?_, ?_, ?_⟩
  · by_cases hl : l = 0
    · simp [thread_steps, thread_step, rwlock_acquire_readlock, sem_wait, hl]
    · by_cases hr : r + 1 = 1
      · by_cases hw : w = 0
        · simp [thread_steps, thread_step, rwlock_acquire_readlock, sem_wait, hl, hr, hw]
        · simp [thread_steps, thread_step, rwlock_acquire_readlock, sem_wait, sem_post,
            hl, hr, hw]
      · simp [thread_steps, thread_step, rwlock_acquire_readlock, sem_wait, sem_post, hl, hr]
  · by_cases hl : l = 0
    · simp [thread_steps, thread_step, rwlock_release_readlock, sem_wait, hl]
    · by_cases hr : r - 1 = 0
      · simp [thread_steps, thread_step, rwlock_release_readlock, sem_wait, sem_post, hl, hr]
      · simp [thread_steps, thread_step, rwlock_release_readlock, sem_wait, sem_post, hl, hr]
  · by_cases hw : w = 0
    · simp [thread_steps, thread_step, rwlock_acquire_writelock, sem_wait, hw]
    · simp [thread_steps, thread_step, rwlock_acquire_writelock, sem_wait, hw]
  · simp [thread_steps, thread_step, rwlock_release_writelock]


/-! ## Sequence numbers in file order -/

theorem strspn_eq_length_iff (s accept : List Int) :
    strspn s accept = s.length ↔ ∀ c ∈ s, c ∈ accept := by
  unfold strspn
  constructor
  · intro h
    have hp : (s.takeWhile (fun c => decide (c ∈ accept))) <+: s := List.takeWhile_prefix _
    have he := hp.eq_of_length h
    intro c hc
    have := (List.takeWhile_eq_self_iff.1 he) c hc
    simpa using this
  · intro h
    have : s.takeWhile (fun c => decide (c ∈ accept)) = s :=
      List.takeWhile_eq_self_iff.2 (fun c hc => by simpa using h c hc)
    rw [this]

theorem spec_is_blank_iff (line : List Int) :
    spec_is_blank line = true ↔ strspn line [32, 9, 10, 13] = line.length := by
  rw [strspn_eq_length_iff]
  simp [spec_is_blank]

theorem fgets_line_newline_first (line : List Int) (hf : FgetsLine line)
    (h : line.head? = some 10) : line = [10] := by
  cases line with
  | nil => simp at h
  | cons c rest =>
    simp only [List.head?_cons, Option.some.injEq] at h
    subst h
    cases rest with
    | nil => rfl
    | cons d rest1 => exact absurd (by simp [List.dropLast]) hf.2.2

/-- On a string as `fgets` stores it that does not begin with a carriage return
unless it is blank, the skip test of the loop is the negation of "is a command
line". -/
theorem skip_line_eq_not_command (line : List Int) (hf : FgetsLine line)
    (hcr : line.head? = some 13 → spec_is_blank line = true) :
    skip_line line = !spec_is_command_line line := by
  have hb := spec_is_blank_iff line
  by_cases h10 : line.head? = some 10
  · have hl := fgets_line_newline_first line hf h10
    subst hl
    decide
  · by_cases h13 : line.head? = some 13
    · have hblank := hcr h13
      have hs := hb.1 hblank
      simp [skip_line, spec_is_command_line, hblank, hs]
    · by_cases hblank : spec_is_blank line = true
      · have hs := hb.1 hblank
        simp [skip_line, spec_is_command_line, hblank, hs]
      · have hs : ¬ strspn line [32, 9, 10, 13] = line.length := fun h => hblank (hb.2 h)
        simp [skip_line, spec_is_command_line, hblank, hs, h10, h13]

/-- A `sscanf` that follows the standard stays inside its buffers on a line whose
two string fields fit them. -/
theorem scan_in_bounds_of_fields_fit (sscanf : List Int → ScanResult)
    (hs : SscanfContract sscanf) (line : List Int) (hfit : fields_fit line = true) :
    scan_in_bounds (sscanf line) = true := by
  obtain ⟨h1, h1c, h2, h2n⟩ := hs line
  simp only [fields_fit, Bool.and_eq_true, decide_eq_true_eq] at hfit
  obtain ⟨⟨hne, hlen1⟩, hlen2⟩ := hfit
  have hitems : 1 ≤ (sscanf line).items_read := h1.2 hne
  have hcmd : (sscanf line).command.length ≤ 9 := by rw [h1c hitems]; exact hlen1
  by_cases h2i : 2 ≤ (sscanf line).items_read
  · have hname : (sscanf line).name_buffer.length ≤ 49 := by rw [h2n h2i]; exact hlen2
    simp [scan_in_bounds, hitems, hcmd, hname]
  · have hlt : (sscanf line).items_read < 2 := by omega
    simp [scan_in_bounds, hitems, hcmd, hlt]

theorem read_commands_all_allocated (sscanf : List Int → ScanResult)
    (lines : List (List Int)) (all_args : List ThreadArgs) (command_count : Int)
    (hb : ∀ line ∈ lines, skip_line line = false → scan_in_bounds (sscanf line) = true) :
    read_commands sscanf (fun _ => true) lines all_args command_count =
      ReadOutcome.commands
        (all_args ++
          spec_number_commands sscanf command_count (lines.filter (fun l => !skip_line l)))
        (command_count + ((lines.filter (fun l => !skip_line l)).length : Int)) := by
  induction lines generalizing all_args command_count with
  | nil => simp [read_commands, spec_number_commands]
  | cons line rest ih =>
    have hrest : ∀ l ∈ rest, skip_line l = false → scan_in_bounds (sscanf l) = true :=
      fun l hl => hb l (List.mem_cons_of_mem _ hl)
    by_cases hs : skip_line line = true
    · simp only [read_commands, hs, if_true, ih _ _ hrest]
      simp [List.filter_cons, hs]
    · simp only [Bool.not_eq_true] at hs
      have hin := hb line (List.mem_cons_self _ _) hs
      simp only [read_commands, hs, Bool.false_eq_true, if_false, if_true, make_thread_args,
        hin, ih _ _ hrest]
      simp only [List.filter_cons, hs, Bool.not_false, if_true, spec_number_commands,
        List.append_assoc, List.singleton_append, List.length_cons]
      congr 1
      push_cast
      ring

theorem spec_number_commands_length (sscanf : List Int → ScanResult) (first : Int)
    (lines : List (List Int)) :
    (spec_number_commands sscanf first lines).length = lines.length := by
  induction lines generalizing first with
  | nil => rfl
  | cons line rest ih => simp [spec_number_commands, ih]

theorem spec_number_commands_priorities (sscanf : List Int → ScanResult) (first : Nat)
    (lines : List (List Int)) :
    (spec_number_commands sscanf (first : Int) lines).map ThreadArgs.priority
      = List.map (fun k : Nat => (k : Int)) (List.range' (first + 1) lines.length) := by
  induction lines generalizing first with
  | nil => rfl
  | cons line rest ih =>
    have := ih (first + 1)
    simp only [Nat.cast_add, Nat.cast_one] at this
    simp only [spec_number_commands, List.map_cons, List.length_cons, List.range'_succ,
      thread_args_of_scan, this, Nat.cast_add, Nat.cast_one]

/-- The executable stand-in meets the contract on the two strings. -/
theorem sscanf_model_contract : SscanfContract sscanf_model := by
  intro line
  unfold sscanf_model
  by_cases h1 : first_field line = []
  · simp [h1]
  · by_cases h2 : second_field line = []
    · simp [h1, h2]
    · simp only [h1, h2, if_false]
      split_ifs <;> simp [h1, h2]


/-- A line whose first field has 75 chars is a command line as `fgets` stores it,
but its field does not fit `args->command`: the loop has no defined result. -/
theorem read_commands_long_field_undefined :
    FgetsLine (List.replicate 75 65 ++ [44, 65, 44, 49, 10]) ∧
    spec_is_command_line (List.replicate 75 65 ++ [44, 65, 44, 49, 10]) = true ∧
    fields_fit (List.replicate 75 65 ++ [44, 65, 44, 49, 10]) = false ∧
    read_commands sscanf_model (fun _ => true)
      [List.replicate 75 65 ++ [44, 65, 44, 49, 10]] [] 0 = ReadOutcome.undefined := by
  decide

/-- C21, as stated, fails on two inputs.  The line `"\rINSERT,A,100\n"` is neither
blank nor a `threads` line, yet the loop skips it (its first char is a carriage
return) and creates no command.  And on the single line `"INSERT,A,100\n"` the
loop creates no command when the allocation fails: `main` returns 1. -/
theorem read_commands_skip_and_abort :
    FgetsLine [13, 73, 78, 83, 69, 82, 84, 44, 65, 44, 49, 48, 48, 10] ∧
    spec_is_command_line [13, 73, 78, 83, 69, 82, 84, 44, 65, 44, 49, 48, 48, 10] = true ∧
    read_commands sscanf_model (fun _ => true)
      [[13, 73, 78, 83, 69, 82, 84, 44, 65, 44, 49, 48, 48, 10]] [] 0
      = ReadOutcome.commands [] 0 ∧
    FgetsLine [73, 78, 83, 69, 82, 84, 44, 65, 44, 49, 48, 48, 10] ∧
    spec_is_command_line [73, 78, 83, 69, 82, 84, 44, 65, 44, 49, 48, 48, 10] = true ∧
    fields_fit [73, 78, 83, 69, 82, 84, 44, 65, 44, 49, 48, 48, 10] = true ∧
    read_commands sscanf_model (fun _ => false)
      [[73, 78, 83, 69, 82, 84, 44, 65, 44, 49, 48, 48, 10]] [] 0
      = ReadOutcome.alloc_failure := by
  decide

/-- C21 (amended): for every list of lines as `fgets` stores them, none beginning
with a carriage return unless it is blank, the two string fields of every
command line fitting the buffers `sscanf` writes them to (first field 1 to 9
chars, second at most 49), and with every allocation of the loop succeeding, the
reading loop of `main` ends with one command per line that is neither blank nor
begins with `threads`, built from these lines in file order, with the priorities
1, 2, ..., N (N the number of such lines, which is also the final
`command_count`), hence a permutation of 1..N; and the lines that are skipped
consume no number: reading only the command lines gives the same commands. -/
theorem sequence_numbers_in_file_order (sscanf : List Int → ScanResult)
    (hs : SscanfContract sscanf)
    (lines : List (List Int)) (hf : ∀ line ∈ lines, FgetsLine line)
    (hcr : ∀ line ∈ lines, line.head? = some 13 → spec_is_blank line = true)
    (hfit : ∀ line ∈ lines, spec_is_command_line line = true → fields_fit line = true) :
    ∃ all_args,
      read_commands sscanf (fun _ => true) lines [] 0
        = ReadOutcome.commands all_args ((lines.filter spec_is_command_line).length : Int) ∧
      all_args = spec_number_commands sscanf 0 (lines.filter spec_is_command_line) ∧
      all_args.length = (lines.filter spec_is_command_line).length ∧
      all_args.map ThreadArgs.priority = turns (lines.filter spec_is_command_line).length ∧
      PrioritiesOneTo (lines.filter spec_is_command_line).length all_args ∧
      read_commands sscanf (fun _ => true) (lines.filter spec_is_command_line) [] 0
        = ReadOutcome.commands all_args
            ((lines.filter spec_is_command_line).length : Int) := by
  have hcmd : ∀ l ∈ lines, (!skip_line l) = spec_is_command_line l := by
    intro l hl
    rw [skip_line_eq_not_command l (hf l hl) (hcr l hl), Bool.not_not]
  have hfilter : lines.filter (fun l => !skip_line l) = lines.filter spec_is_command_line :=
    List.filter_congr hcmd
  have hkeep : (lines.filter spec_is_command_line).filter (fun l => !skip_line l)
      = lines.filter spec_is_command_line := by
    rw [List.filter_eq_self]
    intro l hl
    obtain ⟨hmem, hc⟩ := List.mem_filter.1 hl
    rw [hcmd l hmem]
    exact hc
  have hbounds : ∀ l ∈ lines, skip_line l = false → scan_in_bounds (sscanf l) = true := by
    intro l hl hskip
    have hc : spec_is_command_line l = true := by rw [← hcmd l hl, hskip]; rfl
    exact scan_in_bounds_of_fields_fit sscanf hs l (hfit l hl hc)
  have hbounds1 : ∀ l ∈ lines.filter spec_is_command_line, skip_line l = false →
      scan_in_bounds (sscanf l) = true :=
    fun l hl => hbounds l (List.mem_filter.1 hl).1
  have hprio : (spec_number_commands sscanf 0 (lines.filter spec_is_command_line)).map
      ThreadArgs.priority = turns (lines.filter spec_is_command_line).length := by
    have := spec_number_commands_priorities sscanf 0 (lines.filter spec_is_command_line)
    simpa [turns] using this
  refine ⟨spec_number_commands sscanf 0 (lines.filter spec_is_command_line), ?_, rfl,
    spec_number_commands_length sscanf 0 _, hprio, ?_, ?_⟩
  · rw [read_commands_all_allocated sscanf lines [] 0 hbounds, hfilter]
    simp
  · unfold PrioritiesOneTo
    rw [hprio]
  · rw [read_commands_all_allocated sscanf _ [] 0 hbounds1, hkeep]
    simp

/-- Witness for C21 (amended): the file `threads,2,0` / `insert,A,100` / empty line
/ `\r\n` / blanks / `print,0,0` gives `INSERT A 100` with priority 1 and
`PRINT` with priority 2. -/
theorem sequence_numbers_in_file_order_witness :
    SscanfContract sscanf_model ∧
    (∀ line ∈ [[116, 104, 114, 101, 97, 100, 115, 44, 50, 44, 48, 10],
        [105, 110, 115, 101, 114, 116, 44, 65, 44, 49, 48, 48, 10], [10], [13, 10],
        [32, 9, 10], [112, 114, 105, 110, 116, 44, 48, 44, 48, 10]], FgetsLine line) ∧
    (∀ line ∈ [[116, 104, 114, 101, 97, 100, 115, 44, 50, 44, 48, 10],
        [105, 110, 115, 101, 114, 116, 44, 65, 44, 49, 48, 48, 10], [10], [13, 10],
        [32, 9, 10], [112, 114, 105, 110, 116, 44, 48, 44, 48, 10]],
      line.head? = some 13 → spec_is_blank line = true) ∧
    (∀ line ∈ [[116, 104, 114, 101, 97, 100, 115, 44, 50, 44, 48, 10],
        [105, 110, 115, 101, 114, 116, 44, 65, 44, 49, 48, 48, 10], [10], [13, 10],
        [32, 9, 10], [112, 114, 105, 110, 116, 44, 48, 44, 48, 10]],
      spec_is_command_line line = true → fields_fit line = true) ∧
    read_commands sscanf_model (fun _ => true)
      [[116, 104, 114, 101, 97, 100, 115, 44, 50, 44, 48, 10],
        [105, 110, 115, 101, 114, 116, 44, 65, 44, 49, 48, 48, 10], [10], [13, 10],
        [32, 9, 10], [112, 114, 105, 110, 116, 44, 48, 44, 48, 10]] [] 0
      = ReadOutcome.commands [⟨CMD_INSERT, [65], 100, 1⟩, ⟨CMD_PRINT, [48], 0, 2⟩] 2 ∧
    ∃ all_args,
      read_commands sscanf_model (fun _ => true)
        [[116, 104, 114, 101, 97, 100, 115, 44, 50, 44, 48, 10],
          [105, 110, 115, 101, 114, 116, 44, 65, 44, 49, 48, 48, 10], [10], [13, 10],
          [32, 9, 10], [112, 114, 105, 110, 116, 44, 48, 44, 48, 10]] [] 0
        = ReadOutcome.commands all_args
            ((List.filter spec_is_command_line
              [[116, 104, 114, 101, 97, 100, 115, 44, 50, 44, 48, 10],
                [105, 110, 115, 101, 114, 116, 44, 65, 44, 49, 48, 48, 10], [10], [13, 10],
                [32, 9, 10], [112, 114, 105, 110, 116, 44, 48, 44, 48, 10]]).length : Int) ∧
      all_args.length = (List.filter spec_is_command_line
        [[116, 104, 114, 101, 97, 100, 115, 44, 50, 44, 48, 10],
          [105, 110, 115, 101, 114, 116, 44, 65, 44, 49, 48, 48, 10], [10], [13, 10],
          [32, 9, 10], [112, 114, 105, 110, 116, 44, 48, 44, 48, 10]]).length :=
  ⟨sscanf_model_contract, by decide, by decide, by decide, by decide,
   (sequence_numbers_in_file_order sscanf_model sscanf_model_contract
      [[116, 104, 114, 101, 97, 100, 115, 44, 50, 44, 48, 10],
        [105, 110, 115, 101, 114, 116, 44, 65, 44, 49, 48, 48, 10], [10], [13, 10],
        [32, 9, 10], [112, 114, 105, 110, 116, 44, 48, 44, 48, 10]]
      (by decide) (by decide) (by decide)).imp (fun _ h => ⟨h.1, h.2.2.1⟩)⟩

end Chash
